import Mathlib

/-!
Verification development for the deal-alert listing-lifecycle and deal-signal
engine (scripts/db.py and scripts/build_alerts.py).

Shallow-embedding conventions:
* Timestamps are integers (seconds).  The ISO strings stored by the Python code
  are total orders isomorphic to their underlying UTC instants at second
  resolution, so string comparison on them is integer comparison here.
  Python's `timedelta.days` is floor division of the signed second difference
  by 86400, modelled with `Int.fdiv`.
* Python floats are modelled as exact rationals (ℚ).  Python `round(x, n)`
  (nearest, ties to even) is modelled exactly on ℚ by `pyRound`/`roundTo`.
* SHA-1 hashes (listing signature, description hash) are modelled by the
  pre-image strings themselves: the code only ever compares these hashes for
  equality, and sha1 is a deterministic function of its input, so replacing it
  with the identity preserves all equality behaviour (up to hash collisions,
  which no claim depends on).
* SQLite tables are association lists kept in insertion order.  `SELECT ...
  WHERE listing_id=?` with `fetchone` is `List.find?`; `UPDATE ... WHERE` maps
  over all rows; `INSERT` appends.  `ORDER BY last_seen DESC LIMIT 1` selects
  a row with maximal `last_seen` (ties are unspecified in SQLite; the model
  keeps the first row, in table order, among the maximal ones).  Python `set`
  iteration order is unspecified; the model iterates deduplicated ids in table
  order, which no claim distinguishes.
* Nullable SQL columns / optional dict fields are `Option`; Python truthiness
  of numbers (`x or y`) is modelled explicitly (`none` and `some 0` are falsy).
-/

attribute [local semireducible] Rat.add Rat.mul Rat.inv Rat.sub Rat.ofScientific

namespace DealAlert

/-- Floor of a rational as integer division of numerator by denominator
(kernel-computable form of `Int.floor`). -/
def ratFloor (q : ℚ) : ℤ := q.num / (q.den : ℤ)

/-- Python `round` to an integer: nearest integer, ties to even. -/
def pyRound (q : ℚ) : ℤ :=
  if 1/2 < q - (ratFloor q : ℚ) then ratFloor q + 1
  else if q - (ratFloor q : ℚ) < 1/2 then ratFloor q
  else if ratFloor q % 2 = 0 then ratFloor q else ratFloor q + 1

/-- Python `round(q, n)`: round to `n` decimal digits, ties to even. -/
def roundTo (n : ℕ) (q : ℚ) : ℚ := (pyRound (q * 10 ^ n) : ℚ) / 10 ^ n

/-- Decimal rendering of an integer, as Python `str` renders an int. -/
def intToStr (n : ℤ) : String :=
  if n < 0 then "-" ++ Nat.repr n.natAbs else Nat.repr n.natAbs

/-- Python `str` of an optional integer (`str(None) = "None"`), as used by
`record_event` on the values handed over by the enrichment pipeline. -/
def pyStr : Option ℤ → String
  | none => "None"
  | some n => intToStr n

/-- Value of a list of decimal digit characters. -/
def digitsVal (cs : List Char) : ℕ :=
  cs.foldl (fun n c => n * 10 + (c.toNat - 48)) 0

/-- Parser for the numeric strings reaching Python `float(...)` in
`compute_price_drop_30d`: an optional sign, then digits with an optional
fractional part.  Returns `none` exactly when `float(...)` raises on such
inputs (the pipeline itself only ever stores `str(int)` values; scientific
notation and the like are out of scope). -/
def parseUnsignedFloat (cs : List Char) : Option ℚ :=
  match cs.span (·.isDigit) with
  | (ds, rest) =>
    if ds.isEmpty then none
    else
      match rest with
      | [] => some (digitsVal ds : ℚ)
      | '.' :: fs =>
        if fs.all (·.isDigit) then
          some ((digitsVal ds : ℚ) + (digitsVal fs : ℚ) / 10 ^ fs.length)
        else none
      | _ => none

/-- Python `float(s)` on the event-value strings (see `parseUnsignedFloat`). -/
def parseFloat (s : String) : Option ℚ :=
  match s.toList with
  | '-' :: rest => (parseUnsignedFloat rest).map Neg.neg
  | cs => parseUnsignedFloat cs

/-- ASCII lowercasing of one character.  Python `str.lower()` is full Unicode;
every string the repository lowercases is ASCII text plus CJK characters,
which are fixed points of lowercasing, so the ASCII mapping is exact here. -/
def lowerChar (c : Char) : Char :=
  if 65 ≤ c.toNat ∧ c.toNat ≤ 90 then Char.ofNat (c.toNat + 32) else c

/-- Python `str.lower()` (see `lowerChar`). -/
def strLower (s : String) : String := ⟨s.data.map lowerChar⟩

/-- Has-substring test, Python's `needle in hay`. -/
def strContains (hay needle : String) : Bool :=
  hay.toList.tails.any (fun t => needle.toList.isPrefixOf t)

/-- Python truthy-or on optional integers: `a or b` where `None` and `0` are
falsy. -/
def orTruthy (a b : Option ℤ) : Option ℤ :=
  match a with
  | some x => if x = 0 then b else some x
  | none => b

/-- Python `str.split()` with no separator: the maximal runs of
non-whitespace characters. -/
def pyWords (cs : List Char) : List (List Char) :=
  (List.foldr (fun c ws =>
    if c.isWhitespace then [] :: ws
    else
      match ws with
      | [] => [[c]]
      | w :: rest => (c :: w) :: rest) [] cs).filter (· ≠ [])

/-- The `_normalize_text` helper of db.py: lowercase and collapse whitespace
runs (empty/absent text becomes `""`). -/
def normText (s : String) : String :=
  String.intercalate " " ((pyWords (strLower s).data).map String.mk)

/-- Python `str(x or "")` for an optional rational field (beds/baths): `None`
and `0` render as the empty string.  The exact rendering of other numbers is
irrelevant to the claims (signatures are only compared for equality); any
injective deterministic rendering works. -/
def numOrEmpty : Option ℚ → String
  | none => ""
  | some q =>
    if q = 0 then ""
    else if q.den = 1 then intToStr q.num
    else intToStr q.num ++ "/" ++ Nat.repr q.den

/-- Python `str(x or "")` for an optional integer field (sqft). -/
def intOrEmpty : Option ℤ → String
  | none => ""
  | some n => if n = 0 then "" else intToStr n

/-- One raw listing snapshot as handed to the enrichment pipeline (a Python
dict; absent keys are `none`).  `signature` models the `"signature"` key the
pipeline injects into the payload before upserting. -/
structure Snapshot where
  listing_id : String
  source : String := ""
  url : String := ""
  title : String := ""
  address : String := ""
  city : String := ""
  price : Option ℤ := none
  beds : Option ℚ := none
  baths : Option ℚ := none
  sqft : Option ℤ := none
  description : String := ""
  bc_assessed_value : Option ℤ := none
  assessed : Option ℤ := none
  signature : Option String := none
deriving DecidableEq

/-- The assessed value the code reads:
`listing.get("bc_assessed_value") or listing.get("assessed")`. -/
def effAssessed (l : Snapshot) : Option ℤ :=
  orTruthy l.bc_assessed_value l.assessed

/-- The `signature_for` fingerprint of db.py (sha1 modelled by its pre-image,
see file header). -/
def signature_for (l : Snapshot) : String :=
  String.intercalate "||"
    [normText l.address, normText l.city, numOrEmpty l.beds, numOrEmpty l.baths,
      intOrEmpty l.sqft]

/-- One row of the `listings_current` table. -/
structure Row where
  listing_id : String
  source : String
  url : String
  title : String
  address : String
  city : String
  price : Option ℤ
  beds : Option ℚ
  baths : Option ℚ
  sqft : Option ℤ
  assessed : Option ℤ
  desc_hash : String
  first_seen : ℤ
  last_seen : ℤ
  is_active : Bool
  signature : String
deriving DecidableEq

/-- One row of the append-only `listing_events` table. -/
structure Event where
  listing_id : String
  event_time : ℤ
  event_type : String
  old_value : String
  new_value : String
deriving DecidableEq

/-- The persistent store: the three tables of db.py, in insertion order. -/
structure DB where
  rows : List Row
  events : List Event
  presence : List (String × ℤ)
deriving DecidableEq

def emptyDB : DB := ⟨[], [], []⟩

/-- `SELECT ... FROM listings_current WHERE listing_id=?` with `fetchone`. -/
def rowFor (db : DB) (id : String) : Option Row :=
  db.rows.find? (fun r => r.listing_id == id)

/-- All events recorded for one listing id, in insertion order. -/
def eventsFor (db : DB) (id : String) : List Event :=
  db.events.filter (fun e => e.listing_id == id)

/-- Result dict of `upsert_listing_current`. -/
structure UpsertResult where
  price_changed : Bool
  old_price : Option ℤ
  signature : String
deriving DecidableEq

/-- The row an upsert writes for payload `l` (UPDATE branch keeps the stored
`first_seen`; INSERT uses the observation time for both timestamps). -/
def payloadRow (l : Snapshot) (sig : String) (fs ls : ℤ) : Row :=
  { listing_id := l.listing_id, source := l.source, url := l.url,
    title := l.title, address := l.address, city := l.city, price := l.price,
    beds := l.beds, baths := l.baths, sqft := l.sqft,
    assessed := effAssessed l, desc_hash := l.description,
    first_seen := fs, last_seen := ls, is_active := true, signature := sig }

/-- The signature an upsert stores: the payload's `"signature"` key when
present and truthy, else a freshly computed fingerprint. -/
def upsSig (l : Snapshot) : String :=
  match l.signature with
  | some s => if s = "" then signature_for l else s
  | none => signature_for l

/-- The price comparison of `upsert_listing_current`: both prices present and
different as integers. -/
def priceChangedOf (row : Row) (l : Snapshot) : Bool :=
  match row.price, l.price with
  | some o, some n => decide (o ≠ n)
  | _, _ => false

/-- The per-row effect of the UPDATE branch of `upsert_listing_current`. -/
def upsUpd (l : Snapshot) (seen : ℤ) (r : Row) : Row :=
  if r.listing_id == l.listing_id then
    payloadRow l (upsSig l) r.first_seen seen
  else r

/-- db.py `upsert_listing_current`: insert a fresh active row (first_seen =
last_seen = seen time) or update every mutable field plus `last_seen`,
preserving `first_seen`; report whether the stored and incoming prices are
both present and differ. -/
def upsert_listing_current (db : DB) (l : Snapshot) (seen : ℤ) :
    UpsertResult × DB :=
  match db.rows.find? (fun r => r.listing_id == l.listing_id) with
  | some row =>
    (⟨priceChangedOf row l, row.price, upsSig l⟩,
      { db with rows := db.rows.map (upsUpd l seen) })
  | none =>
    (⟨false, none, upsSig l⟩,
      { db with rows := db.rows ++ [payloadRow l (upsSig l) seen seen] })

/-- db.py `record_event`: append-only write to `listing_events`. -/
def record_event (db : DB) (id ty old new : String) (t : ℤ) : DB :=
  { db with events := db.events ++ [⟨id, t, ty, old, new⟩] }

/-- The per-row effect of `mark_seen`. -/
def seenUpd (id : String) (t : ℤ) (r : Row) : Row :=
  if r.listing_id == id then { r with last_seen := t, is_active := true }
  else r

/-- The per-row effect of `mark_missing`. -/
def missUpd (id : String) (t : ℤ) (r : Row) : Row :=
  if r.listing_id == id then { r with last_seen := t, is_active := false }
  else r

/-- db.py `mark_seen`: append a presence mark, refresh `last_seen`, set
active. -/
def mark_seen (db : DB) (id : String) (t : ℤ) : DB :=
  { db with
    presence := db.presence ++ [(id, t)],
    rows := db.rows.map (seenUpd id t) }

/-- db.py `mark_missing`: deactivate, refresh `last_seen`, and append one
`missing` event (`str(None) = "None"` is the stored old value). -/
def mark_missing (db : DB) (id : String) (t : ℤ) : DB :=
  record_event { db with rows := db.rows.map (missUpd id t) }
    id "missing" "None" "missing" t

/-- db.py `get_listing_history`: events of one listing inside the trailing
window.  The window cutoff is computed from the ambient clock
(`datetime.utcnow()`), passed here as `wall`.  The SQL `ORDER BY event_time
ASC` is not reproduced: the stored order is kept, and every consumer of the
history in the claims is order-insensitive (only the set of values is used). -/
def get_listing_history (db : DB) (id : String) (days wall : ℤ) : List Event :=
  db.events.filter (fun e =>
    e.listing_id == id && decide (wall - days * 86400 ≤ e.event_time))

/-- db.py `compute_dom_days`: whole days since `first_seen`, clamped at 0;
`none` when the id has no stored row. -/
def compute_dom_days (db : DB) (id : String) (now : ℤ) : Option ℤ :=
  (rowFor db id).map (fun r => max 0 ((now - r.first_seen).fdiv 86400))

/-- The numeric values one `price_change` event contributes in
`compute_price_drop_30d`.  This mirrors the `try: append(float(old));
append(float(new)) except: continue` block: an unparseable `old_value` aborts
the event before anything is appended (dropping a parseable `new_value` with
it), while an unparseable `new_value` keeps the already-appended old value. -/
def eventPrices (e : Event) : List ℚ :=
  match parseFloat e.old_value with
  | none => []
  | some o =>
    match parseFloat e.new_value with
    | none => [o]
    | some n => [o, n]

/-- Maximum of a list of rationals (Python `max`), `none` on the empty list
(where Python `max` raises and the source returns 0 beforehand). -/
def listMaxQ : List ℚ → Option ℚ
  | [] => none
  | x :: xs => some (xs.foldl max x)

/-- db.py `compute_price_drop_30d`.  The function's `now` parameter is kept
(its locally computed `cutoff` is dead code in the source); the 30-day window
is anchored to the ambient clock `wall` used inside `get_listing_history`.
The enrichment pipeline calls this with `wall = now`. -/
def compute_price_drop_30d (db : DB) (id : String) (_now wall : ℤ) : ℚ :=
  match rowFor db id with
  | none => 0
  | some r =>
    let current : ℤ := r.price.getD 0
    let evs := get_listing_history db id 30 wall
    let prices :=
      ((evs.filter (fun e => e.event_type == "price_change")).flatMap eventPrices)
        ++ [(current : ℚ)]
    match listMaxQ prices with
    | none => 0
    | some maxP =>
      if maxP ≤ 0 then 0
      else roundTo 4 (max ((maxP - (current : ℚ)) / maxP) 0)

/-- Maximum of a list of integers, `none` on the empty list. -/
def listMaxZ : List ℤ → Option ℤ
  | [] => none
  | x :: xs => some (xs.foldl max x)

/-- Time of the most recent `missing` event of one listing id (the
`ORDER BY event_time DESC LIMIT 1` query; only the time is consumed, so tie
order is irrelevant). -/
def latestMissingTime (db : DB) (id : String) : Option ℤ :=
  listMaxZ (((db.events.filter (fun e =>
    e.listing_id == id && e.event_type == "missing")).map (·.event_time)))

/-- The `SELECT ... WHERE signature=? AND listing_id != ? ORDER BY last_seen
DESC LIMIT 1` query of `detect_relist`: some same-signature other row with
maximal `last_seen` (first in table order among ties, which SQLite leaves
unspecified). -/
def otherBySig (db : DB) (sig me : String) : Option Row :=
  (db.rows.filter (fun r => r.signature == sig && r.listing_id != me)).foldl
    (fun acc r =>
      match acc with
      | none => some r
      | some b => if b.last_seen < r.last_seen then some r else acc)
    none

/-- Clause (a) of `detect_relist` as a boolean: the latest `missing` event of
this id is at least 7 whole days old (Python `(now - t).days >= 7`). -/
def staleMissingB (db : DB) (id : String) (now : ℤ) : Bool :=
  match latestMissingTime db id with
  | some t => decide (7 ≤ (now - t).fdiv 86400)
  | none => false

/-- db.py `detect_relist`: clause (a) fires when the latest `missing` event of
this id is at least 7 whole days old; otherwise clause (b) inspects the single
most-recently-seen other row sharing the signature and fires exactly when that
row is inactive (its own nested 7-day test is redundant: both of its branches
return true). -/
def detect_relist (db : DB) (id : String) (now : ℤ) : Bool :=
  match rowFor db id with
  | none => false
  | some r =>
    if r.signature = "" then false
    else if staleMissingB db id now then true
    else
      match otherBySig db r.signature id with
      | some o => !o.is_active
      | none => false

/-- The configuration consumed by the scorer (the `signals` block of the
settings map). -/
structure Settings where
  below_assessed_ratio : ℚ
  price_drop_ratio_30d : ℚ
  dom_days : ℤ
  motivated_keywords_en : List String
  motivated_keywords_zh : List String
deriving DecidableEq

/-- DEFAULT_SETTINGS.signals of build_alerts.py. -/
def defaultSettings : Settings :=
  { below_assessed_ratio := 19/20,
    price_drop_ratio_30d := 1/20,
    dom_days := 45,
    motivated_keywords_en :=
      ["priced to sell", "motivated", "must sell", "bring your offer"],
    motivated_keywords_zh := ["急售", "诚意卖", "降价", "低于评估"] }

/-- build_alerts.py `keyword_hits`: case-insensitive substring match for the
English list, exact substring match for the Chinese list. -/
def keyword_hits (text : String) (st : Settings) : List String :=
  st.motivated_keywords_en.filter
      (fun k => strContains (strLower text) (strLower k))
    ++ st.motivated_keywords_zh.filter (fun k => strContains text k)

/-- Python `f"{x:.0f}"` on an exact rational: round half-to-even to an
integer, printed without a decimal point. -/
def formatF0 (q : ℚ) : String := intToStr (pyRound q)

/-- The signal-flag map returned by `evaluate_listing`. -/
structure SignalFlags where
  is_below_assessed : Bool
  is_price_drop : Bool
  is_long_dom : Bool
  has_motivated_keywords : Bool
deriving DecidableEq

/-- Below-assessed term of `evaluate_listing`: (score contribution, reason
list, flag).  Active only when the assessed value is known and truthy
(non-`None`, non-zero under Python truthiness). -/
def belowSignal (st : Settings) (l : Snapshot) : ℚ × List String × Bool :=
  match effAssessed l with
  | none => (0, [], false)
  | some a =>
    if a = 0 then (0, [], false)
    else
      let price : ℚ := ((l.price.getD 0 : ℤ) : ℚ)
      let ratio := price / ((max 1 a : ℤ) : ℚ)
      let gap := max 0 (1 - ratio)
      if ratio ≤ st.below_assessed_ratio then
        (gap * 220, ["低于评估价 " ++ formatF0 (gap * 100) ++ "%"], true)
      else (0, [], false)

/-- Price-drop term of `evaluate_listing`. -/
def dropSignal (st : Settings) (drop : ℚ) : ℚ × List String × Bool :=
  if st.price_drop_ratio_30d ≤ drop then
    (drop * 140, ["近30天下降 " ++ formatF0 (drop * 100) ++ "%"], true)
  else (0, [], false)

/-- Days-on-market term of `evaluate_listing`, with its 2× cap. -/
def domSignal (st : Settings) (dom : Option ℤ) : ℚ × List String × Bool :=
  match dom with
  | none => (0, [], false)
  | some d =>
    if st.dom_days ≤ d then
      (min ((d : ℚ) / ((max 1 st.dom_days : ℤ) : ℚ)) 2 * 60,
        ["挂牌 " ++ intToStr d ++ " 天"], true)
    else (0, [], false)

/-- Motivated-keyword term of `evaluate_listing`. -/
def kwSignal (hits : List String) : ℚ × List String × Bool :=
  if hits.isEmpty then (0, [], false)
  else ((20 : ℚ) + ((min hits.length 3 : ℕ) : ℚ) * 6,
    ["包含关键词: " ++ String.intercalate ", " (hits.take 3)], true)

/-- Relist term of `evaluate_listing` (flat 10 points). -/
def relistSignal (b : Bool) : ℚ × List String :=
  if b then ((10 : ℚ), ["可能重新挂牌"]) else (0, [])

/-- build_alerts.py `evaluate_listing`: additive score over the five signal
terms, reasons in that fixed order, score rounded to 2 decimals, and the flag
map. -/
def evaluate_listing (l : Snapshot) (dom : Option ℤ) (drop : ℚ) (relist : Bool)
    (hits : List String) (st : Settings) : ℚ × List String × SignalFlags :=
  let b := belowSignal st l
  let p := dropSignal st drop
  let d := domSignal st dom
  let k := kwSignal hits
  let r := relistSignal relist
  (roundTo 2 (b.1 + p.1 + d.1 + k.1 + r.1),
    b.2.1 ++ p.2.1 ++ d.2.1 ++ k.2.1 ++ r.2,
    ⟨b.2.2, p.2.2, d.2.2, k.2.2⟩)

/-- One enriched output record of the pipeline: the payload (with its injected
signature) plus all derived fields. -/
structure Enriched where
  payload : Snapshot
  dom_days : ℤ
  price_drop_30d_ratio : ℚ
  is_relist : Bool
  reasons : List String
  score : ℚ
  flags : SignalFlags
deriving DecidableEq

/-- The enriched record assembled for one payload from its derived signals. -/
def enrichRecord (st : Settings) (p : Snapshot) (dom : ℤ) (ratio : ℚ)
    (rel : Bool) : Enriched :=
  let hits := keyword_hits p.description st
  let r := evaluate_listing p (some dom) ratio rel hits st
  ⟨p, dom, ratio, rel, r.2.1, r.1, r.2.2⟩

/-- The payload the pipeline builds from a raw snapshot (the injected
`"signature"` key). -/
def withSig (p : Snapshot) : Snapshot :=
  { p with signature := some (signature_for p) }

/-- The per-listing body of `enrich_listings`: inject the signature, upsert,
record a `price_change` event when the upsert reports one, mark presence,
derive the three signals against the mutated store, and assemble the record.
The pipeline passes its single run timestamp `now` both as the signal
functions' `now` and as the ambient clock of the history window. -/
def processOne (st : Settings) (now : ℤ) (db : DB) (raw : Snapshot) :
    Enriched × DB :=
  let payload := withSig raw
  let u := upsert_listing_current db payload now
  let db2 :=
    if u.1.price_changed then
      record_event u.2 payload.listing_id "price_change" (pyStr u.1.old_price)
        (pyStr payload.price) now
    else u.2
  let db3 := mark_seen db2 payload.listing_id now
  let dom := (compute_dom_days db3 payload.listing_id now).getD 0
  let ratio := compute_price_drop_30d db3 payload.listing_id now now
  let rel := detect_relist db3 payload.listing_id now
  (enrichRecord st payload dom ratio rel, db3)

/-- The main loop of `enrich_listings` over one run's batch, in batch order. -/
def enrichLoop (st : Settings) (now : ℤ) : List Snapshot → DB →
    List Enriched × DB
  | [], db => ([], db)
  | r :: rs, db =>
    let p := processOne st now db r
    let q := enrichLoop st now rs p.2
    (p.1 :: q.1, q.2)

/-- build_alerts.py `enrich_listings`: snapshot the previously active ids,
process the batch in order, then mark every previously active id that was not
observed as missing (Python iterates a set of ids; the model iterates the
deduplicated ids in table order, which no claim distinguishes). -/
def enrich_listings (batch : List Snapshot) (st : Settings) (now : ℤ)
    (db : DB) : List Enriched × DB :=
  let prevActive := ((db.rows.filter (·.is_active)).map (·.listing_id)).dedup
  let lp := enrichLoop st now batch db
  let seen := batch.map (·.listing_id)
  let missing := prevActive.filter (fun i => !(seen.contains i))
  (lp.1, missing.foldl (fun d i => mark_missing d i now) lp.2)

/-- Python `sorted(listings, key=score, reverse=True)`: the stable descending
sort by score.  Stable insertion sort with the relation "score at least" is
extensionally that sort (same sorted order, ties kept in input order). -/
def pySortDesc (l : List Enriched) : List Enriched :=
  List.insertionSort (fun a b => b.score ≤ a.score) l

/-- One full "deal" projection of `build_outputs`. -/
structure Deal where
  listing_id : String
  source : String
  url : String
  title : String
  address : String
  city : String
  price : Option ℤ
  beds : Option ℚ
  baths : Option ℚ
  sqft : Option ℤ
  bc_assessed_value : Option ℤ
  dom_days : ℤ
  price_drop_30d_ratio : ℚ
  is_relist : Bool
  score : ℚ
  reasons : List String
deriving DecidableEq

/-- One condensed "alert" projection of `build_outputs`. -/
structure Alert where
  listing_id : String
  title : String
  city : String
  price : Option ℤ
  url : String
  score : ℚ
  reasons : List String
deriving DecidableEq

def toDeal (x : Enriched) : Deal :=
  { listing_id := x.payload.listing_id, source := x.payload.source,
    url := x.payload.url, title := x.payload.title,
    address := x.payload.address, city := x.payload.city,
    price := x.payload.price, beds := x.payload.beds,
    baths := x.payload.baths, sqft := x.payload.sqft,
    bc_assessed_value := x.payload.bc_assessed_value, dom_days := x.dom_days,
    price_drop_30d_ratio := x.price_drop_30d_ratio, is_relist := x.is_relist,
    score := x.score, reasons := x.reasons }

def toAlert (x : Enriched) : Alert :=
  { listing_id := x.payload.listing_id, title := x.payload.title,
    city := x.payload.city, price := x.payload.price, url := x.payload.url,
    score := x.score, reasons := x.reasons }

/-- build_alerts.py `build_outputs`: one stable descending sort, two slices of
it — top-`top_k` full deal records and top-10 condensed alert records (the 10
is a literal in the source, independent of `top_k`). -/
def build_outputs (listings : List Enriched) (top_k : ℕ) :
    List Alert × List Deal :=
  let scored := pySortDesc listings
  ((scored.take 10).map toAlert, (scored.take top_k).map toDeal)

/-! Derived helper definitions used to state and prove the claims. -/

/-- The listing ids of a batch, in batch order. -/
def batchIds (batch : List Snapshot) : List String :=
  batch.map (·.listing_id)

/-- Effect of one `processOne` call on one stored row when the processed id is
already present: the row of that id is rewritten from the payload (keeping
`first_seen`), every other row is untouched. -/
def updRow (p : Snapshot) (t : ℤ) (r : Row) : Row :=
  if r.listing_id == p.listing_id then
    payloadRow (withSig p) (signature_for p) r.first_seen t
  else r

/-- Effect of a whole batch (with distinct ids, all present) on one stored
row. -/
def loopUpd (batch : List Snapshot) (t : ℤ) (r : Row) : Row :=
  match batch.find? (fun p => p.listing_id == r.listing_id) with
  | some p => payloadRow (withSig p) (signature_for p) r.first_seen t
  | none => r

/-- Sequential application of several enrichment runs (batch, timestamp). -/
def applyRuns (st : Settings) (runs : List (List Snapshot × ℤ)) (db : DB) :
    DB :=
  runs.foldl (fun d pr => (enrich_listings pr.1 st pr.2 d).2) db

/-- The event `mark_missing` appends. -/
def missingEvent (id : String) (t : ℤ) : Event :=
  ⟨id, t, "missing", "None", "missing"⟩

/-- The below-assessed gap of a snapshot (0 when the check is disabled). -/
def gapOf (l : Snapshot) : ℚ :=
  match effAssessed l with
  | none => 0
  | some a =>
    if a = 0 then 0
    else max 0 (1 - ((l.price.getD 0 : ℤ) : ℚ) / ((max 1 a : ℤ) : ℚ))

/-- One store mutation, for stating the store-wide timestamp invariant. -/
inductive StoreOp where
  | upsert (l : Snapshot) (t : ℤ)
  | seen (id : String) (t : ℤ)
  | missing (id : String) (t : ℤ)
  | event (id ty old new : String) (t : ℤ)

def applyOp (db : DB) : StoreOp → DB
  | .upsert l t => (upsert_listing_current db l t).2
  | .seen id t => mark_seen db id t
  | .missing id t => mark_missing db id t
  | .event id ty old new t => record_event db id ty old new t

def opTime : StoreOp → ℤ
  | .upsert _ t => t
  | .seen _ t => t
  | .missing _ t => t
  | .event _ _ _ _ t => t

/-- Timestamps of a mutation sequence are non-decreasing, starting at or
after `t0`. -/
def timesMono : ℤ → List StoreOp → Prop
  | _, [] => True
  | t0, op :: rest => t0 ≤ opTime op ∧ timesMono (opTime op) rest

/-- Every stored row has ordered timestamps, all at or before `t`. -/
def rowsTimeOk (db : DB) (t : ℤ) : Prop :=
  ∀ r ∈ db.rows, r.first_seen ≤ r.last_seen ∧ r.last_seen ≤ t

/-- The numeric values of one event under the claim's reading, which skips
each malformed value individually and keeps the other one. -/
def indivValues (e : Event) : List ℚ :=
  (parseFloat e.old_value).toList ++ (parseFloat e.new_value).toList

/-- Modelled from the claim's words (C3/C8): the 30-day drop ratio computed
from every individually parseable old/new value of windowed `price_change`
events plus the current stored price, with the window anchored at `now`. -/
def priceDropClaimSpec (db : DB) (id : String) (now : ℤ) : ℚ :=
  match rowFor db id with
  | none => 0
  | some r =>
    let current : ℚ := ((r.price.getD 0 : ℤ) : ℚ)
    let vals :=
      ((get_listing_history db id 30 now).filter
        (fun e => e.event_type == "price_change")).flatMap indivValues
        ++ [current]
    match listMaxQ vals with
    | none => 0
    | some m => if m ≤ 0 then 0 else roundTo 4 (max ((m - current) / m) 0)

/-- The amended reading of the drop-ratio formula: an event contributes its
parsed values as the code's `try` block does (`eventPrices`), and the window
is anchored at the single run clock. -/
def priceDropAmendedSpec (db : DB) (id : String) (now : ℤ) : ℚ :=
  match rowFor db id with
  | none => 0
  | some r =>
    let current : ℚ := ((r.price.getD 0 : ℤ) : ℚ)
    let vals :=
      ((get_listing_history db id 30 now).filter
        (fun e => e.event_type == "price_change")).flatMap eventPrices
        ++ [current]
    match listMaxQ vals with
    | none => 0
    | some m => if m ≤ 0 then 0 else roundTo 4 (max ((m - current) / m) 0)

/-- Clause (a) of `detect_relist` as both the claim and the code state it:
the latest `missing` event of this id is at least 7 whole days old. -/
def staleMissing (db : DB) (id : String) (now : ℤ) : Prop :=
  ∃ t, latestMissingTime db id = some t ∧ 7 ≤ (now - t).fdiv 86400

/-- Modelled from the claim's words (C1): relist iff the latest `missing`
event is stale, or SOME other stored row shares the signature and is
inactive. -/
def relistClaimRHS (db : DB) (id : String) (now : ℤ) (r : Row) : Prop :=
  staleMissing db id now
    ∨ ∃ o ∈ db.rows, o.listing_id ≠ id ∧ o.signature = r.signature ∧
        o.is_active = false

/-- The amended clause (b): only the most-recently-seen same-signature other
row (the code's `ORDER BY last_seen DESC LIMIT 1` choice) is inspected, and
relist fires iff that row is inactive. -/
def relistAmendedRHS (db : DB) (id : String) (now : ℤ) (r : Row) : Prop :=
  staleMissing db id now
    ∨ ∃ o, otherBySig db r.signature id = some o ∧ o.is_active = false

/-- The tagged ranking used to state stability of the output ranker: sort the
index-tagged records with the same score comparison. -/
def rankedTag (l : List Enriched) : List (ℕ × Enriched) :=
  List.insertionSort (fun a b : ℕ × Enriched => b.2.score ≤ a.2.score) l.enum

/-- Strict ranking order on tagged records: higher score first, ties by
original position. -/
def lexAfter (a b : ℕ × Enriched) : Prop :=
  b.2.score < a.2.score ∨ (a.2.score = b.2.score ∧ a.1 < b.1)

/-! Concrete stores and snapshots used by counterexamples and witnesses. -/

/-- A minimal snapshot used by the concrete run scenarios. -/
def exSnapX : Snapshot := { listing_id := "X", price := some 100 }

/-- Run at time 0 observing X on an empty store. -/
def exRunA : List Enriched × DB :=
  enrich_listings [exSnapX] defaultSettings 0 emptyDB

/-- Run one day later with X absent: X gets its `missing` event. -/
def exRunB : List Enriched × DB :=
  enrich_listings [] defaultSettings 86400 exRunA.2

/-- X reappears one hour after going missing. -/
def exRunC : List Enriched × DB :=
  enrich_listings [exSnapX] defaultSettings (86400 + 3600) exRunB.2

/-- The identical batch re-run at day 9: the `missing` event is now stale, so
relist flips on and the score changes outside the dom term. -/
def exRunD : List Enriched × DB :=
  enrich_listings [exSnapX] defaultSettings (86400 * 9) exRunC.2

/-- A stored row template for handwritten stores. -/
def exRow : Row :=
  { listing_id := "X", source := "", url := "", title := "", address := "",
    city := "", price := some 100, beds := none, baths := none, sqft := none,
    assessed := none, desc_hash := "", first_seen := 0, last_seen := 0,
    is_active := true, signature := "S" }

/-- Relist counterexample store: Y is the most recently seen other row with
X's signature and is active; Z shares the signature and is inactive. -/
def exRelistDB : DB :=
  ⟨[exRow,
    { exRow with listing_id := "Y", last_seen := 20, is_active := true },
    { exRow with listing_id := "Z", last_seen := 10, is_active := false }],
    [], []⟩

/-- Drop-ratio counterexample store: a negative current price, one event whose
old value is malformed, one fully numeric event, both inside the window. -/
def exDropDB : DB :=
  ⟨[{ exRow with price := some (-50) }],
    [{ listing_id := "X", event_time := 50, event_type := "price_change",
        old_value := "abc", new_value := "400" },
      { listing_id := "X", event_time := 60, event_type := "price_change",
        old_value := "100", new_value := "-50" }], []⟩

/-- Malformed-old-value counterexample store for the skip-individually claim:
the event's numeric new value 100 is dropped together with the malformed old
value. -/
def exSkipDB : DB :=
  ⟨[{ exRow with price := some 50 }],
    [{ listing_id := "X", event_time := 50, event_type := "price_change",
        old_value := "abc", new_value := "100" }], []⟩

/-- An event whose old value is malformed and whose new value is numeric. -/
def exEvBadOld : Event :=
  { listing_id := "X", event_time := 50, event_type := "price_change",
    old_value := "abc", new_value := "100" }

/-- An event whose old value is numeric and whose new value is malformed. -/
def exEvBadNew : Event :=
  { listing_id := "X", event_time := 50, event_type := "price_change",
    old_value := "100", new_value := "abc" }

/-- A fully numeric price-change event. -/
def exEvGood : Event :=
  { listing_id := "X", event_time := 60, event_type := "price_change",
    old_value := "100", new_value := "-50" }

/-- Clock-regression store: insert at t=10, then mark X seen at t=5. -/
def exClockDB : DB :=
  mark_seen (upsert_listing_current emptyDB exSnapX 10).2 "X" 5

/-- The below-assessed scenario snapshot of the spec (§8). -/
def exBelowSnap : Snapshot :=
  { listing_id := "c5", price := some 950000,
    bc_assessed_value := some 1000000 }

/-- The stored row of X after the first example run (used to instantiate
hypotheses of general theorems on a concrete store). -/
def exRowA : Row := (rowFor exRunA.2 "X").getD exRow

/-- The stored row of X after the day-9 example run. -/
def exRowD : Row := (rowFor exRunD.2 "X").getD exRow

/-! Rounding infrastructure. -/

theorem ratFloor_eq_floor (q : ℚ) : ratFloor q = ⌊q⌋ := by
  rw [ratFloor, Rat.floor_def]

theorem ratFloor_le (q : ℚ) : (ratFloor q : ℚ) ≤ q := by
  rw [ratFloor_eq_floor]; exact Int.floor_le q

theorem ratFloor_mono {q q' : ℚ} (h : q ≤ q') : ratFloor q ≤ ratFloor q' := by
  rw [ratFloor_eq_floor, ratFloor_eq_floor]; exact Int.floor_mono h

theorem le_pyRound (q : ℚ) : ratFloor q ≤ pyRound q := by
  unfold pyRound
  split_ifs <;> omega

theorem pyRound_le (q : ℚ) : pyRound q ≤ ratFloor q + 1 := by
  unfold pyRound
  split_ifs <;> omega

theorem pyRound_mono {q q' : ℚ} (h : q ≤ q') : pyRound q ≤ pyRound q' := by
  rcases lt_or_eq_of_le (ratFloor_mono h) with hlt | heq
  · calc pyRound q ≤ ratFloor q + 1 := pyRound_le q
    _ ≤ ratFloor q' := by omega
    _ ≤ pyRound q' := le_pyRound q'
  · unfold pyRound
    rw [heq]
    have hfr : q - (ratFloor q' : ℚ) ≤ q' - (ratFloor q' : ℚ) := by linarith
    split_ifs <;> first
      | omega
      | (exfalso; linarith)

theorem pyRound_intCast (k : ℤ) : pyRound (k : ℚ) = k := by
  have h1 : ratFloor (k : ℚ) = k := by
    rw [ratFloor_eq_floor]; exact Int.floor_intCast k
  unfold pyRound
  rw [h1]
  have h2 : (k : ℚ) - (k : ℚ) = 0 := by ring
  rw [h2]
  norm_num

theorem roundTo_mono (n : ℕ) {q q' : ℚ} (h : q ≤ q') :
    roundTo n q ≤ roundTo n q' := by
  unfold roundTo
  have hp : (0 : ℚ) < 10 ^ n := by positivity
  have h1 : q * 10 ^ n ≤ q' * 10 ^ n := by
    exact mul_le_mul_of_nonneg_right h (le_of_lt hp)
  have h2 := pyRound_mono h1
  have h3 : ((pyRound (q * 10 ^ n) : ℤ) : ℚ) ≤ ((pyRound (q' * 10 ^ n) : ℤ) : ℚ) := by
    exact_mod_cast h2
  exact div_le_div_of_nonneg_right h3 hp.le

theorem roundTo_intCast (n : ℕ) (k : ℤ) : roundTo n (k : ℚ) = k := by
  unfold roundTo
  have h1 : ((k : ℚ) * 10 ^ n) = ((k * 10 ^ n : ℤ) : ℚ) := by push_cast; ring
  rw [h1, pyRound_intCast]
  have hp : ((10 : ℚ) ^ n) ≠ 0 := by positivity
  push_cast
  field_simp

theorem roundTo_nonneg (n : ℕ) {q : ℚ} (h : 0 ≤ q) : 0 ≤ roundTo n q := by
  have := roundTo_mono n h
  rw [show (0 : ℚ) = ((0 : ℤ) : ℚ) by norm_num, roundTo_intCast] at this
  exact_mod_cast this

theorem roundTo_le_one (n : ℕ) {q : ℚ} (h : q ≤ 1) : roundTo n q ≤ 1 := by
  have := roundTo_mono n h
  rw [show (1 : ℚ) = ((1 : ℤ) : ℚ) by norm_num, roundTo_intCast] at this
  exact_mod_cast this

theorem roundTo_den (n : ℕ) (q : ℚ) : (roundTo n q * 10 ^ n).den = 1 := by
  unfold roundTo
  have hp : ((10 : ℚ) ^ n) ≠ 0 := by positivity
  rw [div_mul_cancel₀ _ hp]
  exact Rat.den_intCast _

/-! List-maximum lemmas. -/

theorem le_foldl_max (l : List ℚ) (p : ℚ) : p ≤ l.foldl max p := by
  induction l generalizing p with
  | nil => exact le_refl p
  | cons q qs ih =>
    calc p ≤ max p q := le_max_left p q
    _ ≤ qs.foldl max (max p q) := ih (max p q)

theorem mem_le_foldl_max {x : ℚ} :
    ∀ (l : List ℚ) (p : ℚ), x ∈ p :: l → x ≤ l.foldl max p := by
  intro l
  induction l with
  | nil =>
    intro p hx
    rcases List.mem_singleton.mp hx with rfl
    exact le_refl x
  | cons q qs ih =>
    intro p hx
    rcases List.mem_cons.mp hx with rfl | hx'
    · calc x ≤ max x q := le_max_left x q
      _ ≤ qs.foldl max (max x q) := le_foldl_max qs (max x q)
    · rcases List.mem_cons.mp hx' with rfl | hx''
      · calc x ≤ max p x := le_max_right p x
        _ ≤ qs.foldl max (max p x) := le_foldl_max qs (max p x)
      · exact ih (max p q) (List.mem_cons_of_mem _ hx'')

theorem listMaxQ_ge {L : List ℚ} {m x : ℚ} (hm : listMaxQ L = some m)
    (hx : x ∈ L) : x ≤ m := by
  cases L with
  | nil => cases hx
  | cons p ps =>
    have : ps.foldl max p = m := by
      simpa [listMaxQ] using hm
    exact this ▸ mem_le_foldl_max ps p hx

/-- C5: for the scorer input price = 950,000, assessedValue = 1,000,000 with
every other signal absent, the below-assessed check fires (ratio 19/20 equals
the default threshold), the gap is 1/20 = 5 %, the below-assessed term and the
total score are exactly 11 points, the flag map marks only the below-assessed
signal, and the single emitted reason string contains "5%". -/
theorem c5_below_assessed_scenario :
    (belowSignal defaultSettings exBelowSnap).1 = 11
    ∧ gapOf exBelowSnap = 1/20
    ∧ evaluate_listing exBelowSnap none 0 false [] defaultSettings
        = (11, ["低于评估价 " ++ "5%"], ⟨true, false, false, false⟩) :=
  ⟨by decide, by decide, by decide⟩

theorem staleMissingB_iff (db : DB) (id : String) (now : ℤ) :
    staleMissingB db id now = true ↔ staleMissing db id now := by
  unfold staleMissingB staleMissing
  cases h : latestMissingTime db id with
  | none => simp
  | some t => simp [h]

/-- C1 (amended): for every stored listing id (with its signature set),
`detect_relist` returns true iff either its latest `missing` event is at least
7 days old, or the single most-recently-seen other row sharing its signature
is currently inactive — regardless of how recently that other row was last
seen.  (The original claim quantified clause (b) over every same-signature
row; the code only inspects the one with maximal `last_seen`.) -/
theorem c1_detect_relist_amended (db : DB) (id : String) (now : ℤ) (r : Row)
    (h : rowFor db id = some r) (hsig : r.signature ≠ "") :
    detect_relist db id now = true ↔ relistAmendedRHS db id now r := by
  unfold detect_relist
  rw [h]
  simp only []
  rw [if_neg hsig]
  cases hb : staleMissingB db id now with
  | true =>
    simp only [if_pos rfl]
    exact iff_of_true rfl (Or.inl ((staleMissingB_iff db id now).mp hb))
  | false =>
    have hs : ¬ staleMissing db id now := by
      intro hx
      rw [(staleMissingB_iff db id now).mpr hx] at hb
      cases hb
    simp only [Bool.false_eq_true, if_false]
    cases ho : otherBySig db r.signature id with
    | none =>
      constructor
      · intro hfalse; cases hfalse
      · rintro (hx | ⟨o, hoe, _⟩)
        · exact absurd hx hs
        · rw [ho] at hoe; cases hoe
    | some o =>
      constructor
      · intro hx
        exact Or.inr ⟨o, ho, by simpa using hx⟩
      · rintro (hx | ⟨o', hoe, hact⟩)
        · exact absurd hx hs
        · rw [ho] at hoe
          cases hoe
          simpa using hact

/-- C1 counterexample: in `exRelistDB`, listing Z shares X's signature and is
inactive — so the claim's clause (b) as stated holds for X — yet
`detect_relist` returns false, because the only row the code inspects is Y,
the most recently seen same-signature row, which is active.  X has no
`missing` event, so clause (a) is false and the claimed equivalence fails. -/
theorem c1_relist_claim_counterexample :
    rowFor exRelistDB "X" = some exRow
    ∧ relistClaimRHS exRelistDB "X" 1000 exRow
    ∧ detect_relist exRelistDB "X" 1000 = false := by
  refine ⟨by decide, ?_, by decide⟩
  exact Or.inr
    ⟨{ exRow with listing_id := "Z", last_seen := 10, is_active := false },
      by decide, by decide, by decide, by decide⟩

/-- C1 witness: the amended equivalence instantiated on the concrete store of
the example runs, where X's own `missing` event is 8 days old. -/
theorem c1_detect_relist_amended_witness :
    detect_relist exRunD.2 "X" (86400 * 9) = true
      ↔ relistAmendedRHS exRunD.2 "X" (86400 * 9) exRowD :=
  c1_detect_relist_amended exRunD.2 "X" (86400 * 9) exRowD (by decide)
    (by decide)

/-- C3 (amended): `compute_price_drop_30d` (with the history window anchored
at the same clock `now` that the pipeline passes) equals the claimed formula
once "every numeric old/new value" is read as the code's event parsing: a
`price_change` event contributes its old value when that parses and its new
value only when the old one parsed too.  The result is always non-negative, a
multiple of 10⁻⁴ (4-decimal rounding), at most 1 whenever the stored current
price is non-negative, and 0 when no windowed price history exists.  (The
original claim's unconditional range `[0,1]` and its individual-skip reading
fail together on `exDropDB`.) -/
theorem c3_price_drop_amended (db : DB) (id : String) (now wall : ℤ) :
    compute_price_drop_30d db id now now = priceDropAmendedSpec db id now
    ∧ 0 ≤ compute_price_drop_30d db id now wall
    ∧ (compute_price_drop_30d db id now wall * 10 ^ 4).den = 1
    ∧ (∀ r, rowFor db id = some r → 0 ≤ r.price.getD 0 →
        compute_price_drop_30d db id now wall ≤ 1)
    ∧ (∀ r, rowFor db id = some r →
        (get_listing_history db id 30 wall).filter
          (fun e => e.event_type == "price_change") = [] →
        compute_price_drop_30d db id now wall = 0) := by
  refine ⟨?_, ?_, ?_, ?_, ?_⟩
  · unfold compute_price_drop_30d priceDropAmendedSpec
    cases h : rowFor db id with
    | none => rfl
    | some r => rfl
  · unfold compute_price_drop_30d
    cases h : rowFor db id with
    | none => exact le_refl 0
    | some r =>
      dsimp only
      cases hm : listMaxQ (((get_listing_history db id 30 wall).filter
          (fun e => e.event_type == "price_change")).flatMap eventPrices
          ++ [((r.price.getD 0 : ℤ) : ℚ)]) with
      | none => exact le_refl 0
      | some m =>
        dsimp only
        split_ifs with hle
        · exact le_refl 0
        · exact roundTo_nonneg 4 (le_max_right _ 0)
  · unfold compute_price_drop_30d
    cases h : rowFor db id with
    | none => show ((0 : ℚ) * 10 ^ 4).den = 1; decide
    | some r =>
      dsimp only
      cases hm : listMaxQ (((get_listing_history db id 30 wall).filter
          (fun e => e.event_type == "price_change")).flatMap eventPrices
          ++ [((r.price.getD 0 : ℤ) : ℚ)]) with
      | none => show ((0 : ℚ) * 10 ^ 4).den = 1; decide
      | some m =>
        dsimp only
        split_ifs with hle
        · show ((0 : ℚ) * 10 ^ 4).den = 1; decide
        · exact roundTo_den 4 _
  · intro r hr hpr
    unfold compute_price_drop_30d
    rw [hr]
    dsimp only
    cases hm : listMaxQ (((get_listing_history db id 30 wall).filter
        (fun e => e.event_type == "price_change")).flatMap eventPrices
        ++ [((r.price.getD 0 : ℤ) : ℚ)]) with
    | none => norm_num
    | some m =>
      dsimp only
      split_ifs with hle
      · norm_num
      · push_neg at hle
        have hcur : (0 : ℚ) ≤ ((r.price.getD 0 : ℤ) : ℚ) := by
          exact_mod_cast hpr
        have hmem : ((r.price.getD 0 : ℤ) : ℚ) ∈
            ((get_listing_history db id 30 wall).filter
              (fun e => e.event_type == "price_change")).flatMap eventPrices
              ++ [((r.price.getD 0 : ℤ) : ℚ)] :=
          List.mem_append_right _ (List.mem_singleton_self _)
        have hcle := listMaxQ_ge hm hmem
        apply roundTo_le_one
        refine max_le ?_ (by norm_num)
        rw [div_le_one hle]
        linarith
  · intro r hr hfil
    unfold compute_price_drop_30d
    rw [hr]
    dsimp only
    rw [hfil]
    simp only [List.flatMap_nil, List.nil_append]
    have hmq : listMaxQ [((r.price.getD 0 : ℤ) : ℚ)]
        = some ((r.price.getD 0 : ℤ) : ℚ) := by
      simp [listMaxQ]
    rw [hmq]
    dsimp only
    split_ifs with hle
    · rfl
    · have : (((r.price.getD 0 : ℤ) : ℚ) - ((r.price.getD 0 : ℤ) : ℚ))
          / ((r.price.getD 0 : ℤ) : ℚ) = 0 := by
        rw [sub_self, zero_div]
      rw [this, max_self]
      simpa using roundTo_intCast 4 0

/-- C3 counterexample: on `exDropDB` (stored price −50, one event with a
malformed old value and numeric new value 400, one fully numeric event
100 → −50), the code returns 3/2 — outside the claimed range `[0,1]` — while
the claim's own formula (every numeric value, skipped individually) yields
9/8, so the claimed equality fails at the same input. -/
theorem c3_price_drop_counterexample :
    compute_price_drop_30d exDropDB "X" 100 100 = 3/2
    ∧ priceDropClaimSpec exDropDB "X" 100 = 9/8
    ∧ ¬(compute_price_drop_30d exDropDB "X" 100 100
        = priceDropClaimSpec exDropDB "X" 100)
    ∧ ¬(compute_price_drop_30d exDropDB "X" 100 100 ≤ 1) :=
  ⟨by decide, by decide, by decide, by decide⟩

/-- C3 witness: the amended statement instantiated on the store of the first
example run (one stored row, price 100, no events). -/
theorem c3_price_drop_amended_witness :
    compute_price_drop_30d exRunA.2 "X" 50 50 = priceDropAmendedSpec exRunA.2 "X" 50
    ∧ 0 ≤ compute_price_drop_30d exRunA.2 "X" 50 99
    ∧ (compute_price_drop_30d exRunA.2 "X" 50 99 * 10 ^ 4).den = 1
    ∧ compute_price_drop_30d exRunA.2 "X" 50 99 ≤ 1
    ∧ compute_price_drop_30d exRunA.2 "X" 50 99 = 0 :=
  ⟨(c3_price_drop_amended exRunA.2 "X" 50 99).1,
    (c3_price_drop_amended exRunA.2 "X" 50 99).2.1,
    (c3_price_drop_amended exRunA.2 "X" 50 99).2.2.1,
    (c3_price_drop_amended exRunA.2 "X" 50 99).2.2.2.1 exRowA (by decide)
      (by decide),
    (c3_price_drop_amended exRunA.2 "X" 50 99).2.2.2.2 exRowA (by decide)
      (by decide)⟩

/-- C8 (amended): absent `assessedValue` disables the below-assessed check
(flag false, term absent) while every other score term is still computed;
absent `price` scores exactly as price 0; and the drop-ratio computation never
aborts on malformed history values — but they are not skipped individually:
a malformed old value drops its event's new value too, while a malformed new
value alone keeps the parsed old value. -/
theorem c8_graceful_degradation_amended :
    (∀ (st : Settings) (l : Snapshot) (dom : Option ℤ) (drop : ℚ) (rel : Bool)
        (hits : List String), effAssessed l = none →
      (evaluate_listing l dom drop rel hits st).2.2.is_below_assessed = false
      ∧ (evaluate_listing l dom drop rel hits st).1
          = roundTo 2 ((dropSignal st drop).1 + (domSignal st dom).1
              + (kwSignal hits).1 + (relistSignal rel).1))
    ∧ (∀ (st : Settings) (l : Snapshot) (dom : Option ℤ) (drop : ℚ)
        (rel : Bool) (hits : List String),
        evaluate_listing { l with price := none } dom drop rel hits st
          = evaluate_listing { l with price := some 0 } dom drop rel hits st)
    ∧ (∀ e : Event, parseFloat e.old_value = none → eventPrices e = [])
    ∧ (∀ (e : Event) (o : ℚ), parseFloat e.old_value = some o →
        parseFloat e.new_value = none → eventPrices e = [o])
    ∧ (∀ (e : Event) (o n : ℚ), parseFloat e.old_value = some o →
        parseFloat e.new_value = some n → eventPrices e = [o, n]) := by
  refine ⟨?_, ?_, ?_, ?_, ?_⟩
  · intro st l dom drop rel hits h
    unfold evaluate_listing belowSignal
    rw [h]
    refine ⟨rfl, ?_⟩
    show roundTo 2 (0 + (dropSignal st drop).1 + (domSignal st dom).1
      + (kwSignal hits).1 + (relistSignal rel).1) = _
    rw [zero_add]
  · intro st l dom drop rel hits
    rfl
  · intro e h
    unfold eventPrices
    rw [h]
  · intro e o ho hn
    unfold eventPrices
    rw [ho, hn]
  · intro e o n ho hn
    unfold eventPrices
    rw [ho, hn]

/-- C8 counterexample: in `exSkipDB` the single windowed event has the
malformed old value "abc" and the perfectly numeric new value "100", and the
stored price is 50.  Skipping only the malformed value — as the claim states —
would yield a ratio of 1/2; the code drops the numeric 100 together with the
malformed old value and returns 0. -/
theorem c8_skip_individually_counterexample :
    compute_price_drop_30d exSkipDB "X" 100 100 = 0
    ∧ priceDropClaimSpec exSkipDB "X" 100 = 1/2
    ∧ parseFloat "100" = some 100
    ∧ ¬(compute_price_drop_30d exSkipDB "X" 100 100
        = priceDropClaimSpec exSkipDB "X" 100) :=
  ⟨by decide, by decide, by decide, by decide⟩

/-- C8 witness: the amended statement instantiated on concrete scorer inputs
and the concrete events of the counterexample stores. -/
theorem c8_graceful_degradation_amended_witness :
    ((evaluate_listing exSnapX none 0 false [] defaultSettings).2.2.is_below_assessed
        = false
      ∧ (evaluate_listing exSnapX none 0 false [] defaultSettings).1
          = roundTo 2 ((dropSignal defaultSettings 0).1
              + (domSignal defaultSettings none).1 + (kwSignal []).1
              + (relistSignal false).1))
    ∧ evaluate_listing { exSnapX with price := none } none 0 false []
          defaultSettings
        = evaluate_listing { exSnapX with price := some 0 } none 0 false []
          defaultSettings
    ∧ eventPrices exEvBadOld = []
    ∧ eventPrices exEvBadNew = [100]
    ∧ eventPrices exEvGood = [100, -50] :=
  ⟨c8_graceful_degradation_amended.1 defaultSettings exSnapX none 0 false []
      (by decide),
    c8_graceful_degradation_amended.2.1 defaultSettings exSnapX none 0 false [],
    c8_graceful_degradation_amended.2.2.1 _ (by decide),
    c8_graceful_degradation_amended.2.2.2.1 _ 100 (by decide) (by decide),
    c8_graceful_degradation_amended.2.2.2.2 _ 100 (-50) (by decide) (by decide)⟩

/-! find?/map infrastructure for the store lemmas. -/

theorem find?_map_listing (f : Row → Row)
    (hf : ∀ r, (f r).listing_id = r.listing_id) (l : List Row) (id : String) :
    (l.map f).find? (fun r => r.listing_id == id)
      = (l.find? (fun r => r.listing_id == id)).map f := by
  induction l with
  | nil => rfl
  | cons r rs ih =>
    have hg : ((f r).listing_id == id) = (r.listing_id == id) := by rw [hf]
    cases hc : (r.listing_id == id) with
    | true => simp [List.find?_cons, hg, hc]
    | false => simp [List.find?_cons, hg, hc, ih]

theorem upsUpd_listing (l : Snapshot) (t : ℤ) (r : Row) :
    (upsUpd l t r).listing_id = r.listing_id := by
  unfold upsUpd
  split_ifs with h
  · unfold payloadRow
    simp only []
    have he : r.listing_id = l.listing_id := by simpa using h
    exact he.symm
  · rfl

theorem seenUpd_listing (id : String) (t : ℤ) (r : Row) :
    (seenUpd id t r).listing_id = r.listing_id := by
  unfold seenUpd
  split_ifs <;> rfl

theorem missUpd_listing (id : String) (t : ℤ) (r : Row) :
    (missUpd id t r).listing_id = r.listing_id := by
  unfold missUpd
  split_ifs <;> rfl

/-- C9 step: each store mutation with a timestamp at or after every stored
timestamp keeps all rows ordered and bounded by the new timestamp. -/
theorem rowsTimeOk_applyOp {db : DB} {t : ℤ} (hInv : rowsTimeOk db t)
    (op : StoreOp) (hle : t ≤ opTime op) :
    rowsTimeOk (applyOp db op) (opTime op) := by
  cases op with
  | upsert l t' =>
    intro r hr
    simp only [opTime] at hle
    simp only [applyOp, opTime] at hr ⊢
    unfold upsert_listing_current at hr
    cases hf : db.rows.find? (fun row => row.listing_id == l.listing_id) with
    | some row =>
      rw [hf] at hr
      simp only [] at hr
      rcases List.mem_map.mp hr with ⟨r0, hr0, rfl⟩
      have h0 := hInv r0 hr0
      unfold upsUpd
      split_ifs
      · unfold payloadRow
        simp only []
        omega
      · omega
    | none =>
      rw [hf] at hr
      simp only [] at hr
      rcases List.mem_append.mp hr with hin | hnew
      · have h0 := hInv r hin
        omega
      · rcases List.mem_singleton.mp hnew with rfl
        unfold payloadRow
        simp only []
        omega
  | seen id t' =>
    intro r hr
    simp only [opTime] at hle
    simp only [applyOp, opTime, mark_seen] at hr ⊢
    rcases List.mem_map.mp hr with ⟨r0, hr0, rfl⟩
    have h0 := hInv r0 hr0
    unfold seenUpd
    split_ifs
    · simp only []
      omega
    · omega
  | missing id t' =>
    intro r hr
    simp only [opTime] at hle
    simp only [applyOp, opTime, mark_missing, record_event] at hr ⊢
    rcases List.mem_map.mp hr with ⟨r0, hr0, rfl⟩
    have h0 := hInv r0 hr0
    unfold missUpd
    split_ifs
    · simp only []
      omega
    · omega
  | event id ty old new t' =>
    intro r hr
    simp only [opTime] at hle
    simp only [applyOp, opTime, record_event] at hr ⊢
    have h0 := hInv r hr
    omega

/-- C9 (amended): provided mutation timestamps are non-decreasing (each at or
after everything already stored), every stored row satisfies
firstSeen ≤ lastSeen after every mutation; a first insert stores
firstSeen = lastSeen = observedAt, and every upsert of an existing id sets
lastSeen to its timestamp while preserving firstSeen.  (The unconditional
claim fails when a mutation carries a timestamp earlier than the stored
firstSeen, see the counterexample.) -/
theorem c9_first_last_seen_amended :
    (∀ (db0 : DB) (t0 : ℤ) (ops : List StoreOp), rowsTimeOk db0 t0 →
      timesMono t0 ops →
      ∀ r ∈ (ops.foldl applyOp db0).rows, r.first_seen ≤ r.last_seen)
    ∧ (∀ (db : DB) (l : Snapshot) (t : ℤ), rowFor db l.listing_id = none →
        (rowFor (upsert_listing_current db l t).2 l.listing_id).map
          (fun row => (row.first_seen, row.last_seen)) = some (t, t))
    ∧ (∀ (db : DB) (l : Snapshot) (t : ℤ) (r : Row),
        rowFor db l.listing_id = some r →
        (rowFor (upsert_listing_current db l t).2 l.listing_id).map
          (fun row => (row.first_seen, row.last_seen))
          = some (r.first_seen, t)) := by
  refine ⟨?_, ?_, ?_⟩
  · intro db0 t0 ops
    induction ops generalizing db0 t0 with
    | nil =>
      intro hInv _ r hr
      exact (hInv r hr).1
    | cons op rest ih =>
      intro hInv hMono r hr
      exact ih (applyOp db0 op) (opTime op)
        (rowsTimeOk_applyOp hInv op hMono.1) hMono.2 r hr
  · intro db l t h
    unfold rowFor at h ⊢
    unfold upsert_listing_current
    rw [h]
    simp only []
    have hg : ((payloadRow l (upsSig l) t t).listing_id == l.listing_id)
        = true := by
      unfold payloadRow
      simp
    simp [List.find?_append, h, List.find?_cons, hg, payloadRow]
  · intro db l t r h
    unfold rowFor at h ⊢
    unfold upsert_listing_current
    rw [h]
    simp only []
    rw [find?_map_listing (upsUpd l t) (upsUpd_listing l t), h]
    have hg0 := List.find?_some h
    have hg : (r.listing_id == l.listing_id) = true := hg0
    simp [upsUpd, hg, payloadRow]

/-- C9 counterexample: inserting X at t = 10 and then marking it seen at the
earlier time t = 5 leaves the stored row with firstSeen = 10 > 5 = lastSeen,
so the invariant does not hold unconditionally after every mutation. -/
theorem c9_clock_regression_counterexample :
    (rowFor exClockDB "X").map
        (fun r => (r.first_seen, r.last_seen,
          decide (r.first_seen ≤ r.last_seen)))
      = some (10, 5, false) := by decide

/-- C9 witness: the amended statement instantiated on a concrete monotone
mutation sequence and on concrete upserts. -/
theorem c9_first_last_seen_amended_witness :
    (∀ r ∈ (([StoreOp.upsert exSnapX 3, StoreOp.seen "X" 7,
        StoreOp.missing "X" 9]).foldl applyOp emptyDB).rows,
      r.first_seen ≤ r.last_seen)
    ∧ (rowFor (upsert_listing_current emptyDB exSnapX 4).2 "X").map
        (fun row => (row.first_seen, row.last_seen)) = some (4, 4)
    ∧ (rowFor (upsert_listing_current exRunA.2 exSnapX 6).2 "X").map
        (fun row => (row.first_seen, row.last_seen))
        = some (exRowA.first_seen, 6) :=
  ⟨c9_first_last_seen_amended.1 emptyDB 0 _ (by intro r hr; cases hr)
      ⟨by decide, by decide, by decide, trivial⟩,
    c9_first_last_seen_amended.2.1 emptyDB exSnapX 4 (by decide),
    c9_first_last_seen_amended.2.2 exRunA.2 exSnapX 6 exRowA (by decide)⟩

/-- C10: for an upsert of an already-stored id, `priceChanged` is reported
true exactly when the stored and incoming prices are both present and differ
as integers; whenever either price is missing the upsert reports false, so
the pipeline's per-listing step appends no `price_change` event (its event
log is unchanged) when a price appears after being absent or disappears. -/
theorem c10_price_changed_guard (st : Settings) (db : DB) (l : Snapshot)
    (t : ℤ) (r : Row) (h : rowFor db l.listing_id = some r) :
    ((upsert_listing_current db l t).1.price_changed = true
      ↔ ∃ po pn, r.price = some po ∧ l.price = some pn ∧ po ≠ pn)
    ∧ ((r.price = none ∨ l.price = none) →
        (processOne st t db l).2.events = db.events) := by
  constructor
  · unfold rowFor at h
    unfold upsert_listing_current
    rw [h]
    simp only []
    unfold priceChangedOf
    cases hp : r.price with
    | none =>
      simp only []
      constructor
      · intro hx
        cases l.price <;> simp at hx
      · rintro ⟨po, pn, hpo, _, _⟩
        cases hpo
    | some o =>
      cases hq : l.price with
      | none =>
        simp only []
        constructor
        · intro hx; simp at hx
        · rintro ⟨po, pn, _, hpn, _⟩
          cases hpn
      | some n =>
        simp only [decide_eq_true_eq]
        constructor
        · intro hx
          exact ⟨o, n, rfl, rfl, hx⟩
        · rintro ⟨po, pn, hpo, hpn, hne⟩
          cases hpo; cases hpn
          exact hne
  · intro hnone
    have hfind : db.rows.find?
        (fun rr => rr.listing_id == (withSig l).listing_id) = some r := h
    have hchanged : priceChangedOf r (withSig l) = false := by
      unfold priceChangedOf
      rw [show (withSig l).price = l.price from rfl]
      rcases hnone with hr0 | hl0
      · rw [hr0]
      · rw [hl0]; cases r.price <;> rfl
    unfold processOne upsert_listing_current
    dsimp only
    rw [hfind]
    dsimp only
    rw [hchanged]
    simp only [Bool.false_eq_true, if_false]
    rfl

/-- C10 witness: the guard instantiated on the store of the first example run
(stored price 100): an incoming price 200 reports a change, an absent
incoming price appends no event. -/
theorem c10_price_changed_guard_witness :
    ((upsert_listing_current exRunA.2 { exSnapX with price := some 200 }
        5).1.price_changed = true
      ↔ ∃ po pn, exRowA.price = some po
          ∧ ({ exSnapX with price := some 200 } : Snapshot).price = some pn
          ∧ po ≠ pn)
    ∧ ((processOne defaultSettings 5 exRunA.2
        { exSnapX with price := none }).2.events = exRunA.2.events) :=
  ⟨(c10_price_changed_guard defaultSettings exRunA.2
      { exSnapX with price := some 200 } 5 exRowA (by decide)).1,
    (c10_price_changed_guard defaultSettings exRunA.2
      { exSnapX with price := none } 5 exRowA (by decide)).2
      (Or.inr rfl)⟩

/-! Monotonicity of the individual score terms. -/

theorem belowPair_fst (c : Prop) [Decidable c] (x : ℚ) (s : List String) :
    (if c then (x, s, true) else ((0 : ℚ), ([] : List String), false)).1
      = if c then x else 0 := by
  split_ifs <;> rfl

theorem belowTerm_mono (th r1 r2 : ℚ)
    (hg : max 0 (1 - r1) ≤ max 0 (1 - r2)) :
    (if r1 ≤ th then max 0 (1 - r1) * 220 else 0)
      ≤ (if r2 ≤ th then max 0 (1 - r2) * 220 else 0) := by
  by_cases h2 : r2 ≤ th
  · rw [if_pos h2]
    by_cases h1 : r1 ≤ th
    · rw [if_pos h1]
      exact mul_le_mul_of_nonneg_right hg (by norm_num)
    · rw [if_neg h1]
      exact mul_nonneg (le_max_left 0 _) (by norm_num)
  · rw [if_neg h2]
    by_cases h1 : r1 ≤ th
    · rw [if_pos h1]
      have hr12 : r1 < r2 := lt_of_le_of_lt h1 (not_le.mp h2)
      have hmono : max 0 (1 - r2) ≤ max 0 (1 - r1) :=
        max_le_max (le_refl 0) (by linarith)
      have heq : max 0 (1 - r1) = max 0 (1 - r2) := le_antisymm hg hmono
      have hz : max 0 (1 - r1) = 0 := by
        rcases le_or_lt (1 - r1) 0 with hle | hpos
        · exact max_eq_left hle
        · exfalso
          have e1 : max 0 (1 - r1) = 1 - r1 := max_eq_right hpos.le
          have hpos2 : 0 < 1 - r2 := by
            rcases lt_or_le 0 (1 - r2) with hx | hle2
            · exact hx
            · exfalso
              rw [e1, max_eq_left hle2] at heq
              linarith
          have e2 : max 0 (1 - r2) = 1 - r2 := max_eq_right hpos2.le
          rw [e1, e2] at heq
          linarith
      rw [hz, zero_mul]
    · rw [if_neg h1]

theorem dropSignal_mono (st : Settings) (hth : 0 ≤ st.price_drop_ratio_30d)
    {q1 q2 : ℚ} (h : q1 ≤ q2) :
    (dropSignal st q1).1 ≤ (dropSignal st q2).1 := by
  unfold dropSignal
  by_cases h1 : st.price_drop_ratio_30d ≤ q1
  · rw [if_pos h1, if_pos (le_trans h1 h)]
    exact mul_le_mul_of_nonneg_right h (by norm_num)
  · rw [if_neg h1]
    by_cases h2 : st.price_drop_ratio_30d ≤ q2
    · rw [if_pos h2]
      exact mul_nonneg (le_trans hth h2) (by norm_num)
    · rw [if_neg h2]

theorem domSignal_mono (st : Settings) (hth : 0 ≤ st.dom_days) {d1 d2 : ℤ}
    (h : d1 ≤ d2) :
    (domSignal st (some d1)).1 ≤ (domSignal st (some d2)).1 := by
  unfold domSignal
  dsimp only
  by_cases h1 : st.dom_days ≤ d1
  · rw [if_pos h1, if_pos (le_trans h1 h)]
    have hden : (0 : ℚ) ≤ ((max 1 st.dom_days : ℤ) : ℚ) := by
      have h0 : (0 : ℤ) ≤ max 1 st.dom_days :=
        le_trans zero_le_one (le_max_left 1 _)
      exact_mod_cast h0
    have hdiv : ((d1 : ℤ) : ℚ) / ((max 1 st.dom_days : ℤ) : ℚ)
        ≤ ((d2 : ℤ) : ℚ) / ((max 1 st.dom_days : ℤ) : ℚ) := by
      have hc : ((d1 : ℤ) : ℚ) ≤ ((d2 : ℤ) : ℚ) := by exact_mod_cast h
      exact div_le_div_of_nonneg_right hc hden
    exact mul_le_mul_of_nonneg_right (min_le_min hdiv (le_refl 2))
      (by norm_num)
  · rw [if_neg h1]
    by_cases h2 : st.dom_days ≤ d2
    · rw [if_pos h2]
      have hd2 : (0 : ℚ) ≤ ((d2 : ℤ) : ℚ) := by
        exact_mod_cast le_trans hth h2
      have hden : (0 : ℚ) ≤ ((max 1 st.dom_days : ℤ) : ℚ) := by
        have h0 : (0 : ℤ) ≤ max 1 st.dom_days :=
          le_trans zero_le_one (le_max_left 1 _)
        exact_mod_cast h0
      exact mul_nonneg
        (le_min (div_nonneg hd2 hden) (by norm_num)) (by norm_num)
    · rw [if_neg h2]

theorem kwSignal_mono {h1 h2 : List String} (h : h1.length ≤ h2.length) :
    (kwSignal h1).1 ≤ (kwSignal h2).1 := by
  unfold kwSignal
  by_cases e1 : h1.isEmpty
  · rw [if_pos e1]
    by_cases e2 : h2.isEmpty
    · rw [if_pos e2]
    · rw [if_neg e2]
      have hmin : (0 : ℚ) ≤ ((min h2.length 3 : ℕ) : ℚ) := by positivity
      dsimp only
      nlinarith
  · rw [if_neg e1]
    have e2 : ¬ h2.isEmpty = true := by
      intro hx
      have hx2 : h2 = [] := List.isEmpty_iff.mp hx
      have hl1 : h1.length = 0 := by
        rw [hx2] at h
        simpa using h
      have hx1 : h1 = [] := List.length_eq_zero.mp hl1
      rw [hx1] at e1
      exact e1 rfl
    rw [if_neg e2]
    have hmin : ((min h1.length 3 : ℕ) : ℚ) ≤ ((min h2.length 3 : ℕ) : ℚ) := by
      exact_mod_cast min_le_min h (le_refl 3)
    dsimp only
    nlinarith

/-- C6: the total score is monotonically non-decreasing in the below-assessed
gap (varying only the price), the price-drop ratio, days-on-market, and the
keyword-hit count, holding every other scorer input fixed.  The two signal
thresholds are assumed non-negative, as they are under the shipped defaults
(0.05 and 45); a negative threshold would let a triggered term contribute a
negative amount. -/
theorem c6_score_monotone :
    (∀ (st : Settings) (l : Snapshot) (dom : Option ℤ) (drop : ℚ) (rel : Bool)
        (hits : List String) (p2 : Option ℤ),
      gapOf l ≤ gapOf { l with price := p2 } →
      (evaluate_listing l dom drop rel hits st).1
        ≤ (evaluate_listing { l with price := p2 } dom drop rel hits st).1)
    ∧ (∀ (st : Settings) (l : Snapshot) (dom : Option ℤ) (rel : Bool)
        (hits : List String) (q1 q2 : ℚ), 0 ≤ st.price_drop_ratio_30d →
      q1 ≤ q2 →
      (evaluate_listing l dom q1 rel hits st).1
        ≤ (evaluate_listing l dom q2 rel hits st).1)
    ∧ (∀ (st : Settings) (l : Snapshot) (drop : ℚ) (rel : Bool)
        (hits : List String) (d1 d2 : ℤ), 0 ≤ st.dom_days → d1 ≤ d2 →
      (evaluate_listing l (some d1) drop rel hits st).1
        ≤ (evaluate_listing l (some d2) drop rel hits st).1)
    ∧ (∀ (st : Settings) (l : Snapshot) (dom : Option ℤ) (drop : ℚ)
        (rel : Bool) (hits1 hits2 : List String),
      hits1.length ≤ hits2.length →
      (evaluate_listing l dom drop rel hits1 st).1
        ≤ (evaluate_listing l dom drop rel hits2 st).1) := by
  refine ⟨?_, ?_, ?_, ?_⟩
  · intro st l dom drop rel hits p2 hg
    unfold evaluate_listing
    dsimp only
    apply roundTo_mono
    have hb : (belowSignal st l).1
        ≤ (belowSignal st { l with price := p2 }).1 := by
      have hE : effAssessed { l with price := p2 } = effAssessed l := rfl
      unfold belowSignal
      unfold gapOf at hg
      rw [hE] at hg ⊢
      cases hA : effAssessed l with
      | none =>
        exact le_refl 0
      | some a =>
        rw [hA] at hg
        dsimp only
        by_cases ha : a = 0
        · simp only [if_pos ha]
          exact le_refl 0
        · simp only [if_neg ha] at hg ⊢
          rw [belowPair_fst, belowPair_fst]
          exact belowTerm_mono st.below_assessed_ratio _ _ hg
    linarith [hb]
  · intro st l dom rel hits q1 q2 hth h
    unfold evaluate_listing
    dsimp only
    apply roundTo_mono
    have hp := dropSignal_mono st hth h
    linarith [hp]
  · intro st l drop rel hits d1 d2 hth h
    unfold evaluate_listing
    dsimp only
    apply roundTo_mono
    have hd := domSignal_mono st hth h
    linarith [hd]
  · intro st l dom drop rel hits1 hits2 h
    unfold evaluate_listing
    dsimp only
    apply roundTo_mono
    have hk := kwSignal_mono h
    linarith [hk]

/-- C6 witness: all four monotonicity directions instantiated on concrete
scorer inputs under the default settings. -/
theorem c6_score_monotone_witness :
    ((evaluate_listing exBelowSnap none 0 false [] defaultSettings).1
      ≤ (evaluate_listing { exBelowSnap with price := some 900000 } none 0
          false [] defaultSettings).1)
    ∧ ((evaluate_listing exSnapX none 0 false [] defaultSettings).1
      ≤ (evaluate_listing exSnapX none (1/10) false [] defaultSettings).1)
    ∧ ((evaluate_listing exSnapX (some 10) 0 false [] defaultSettings).1
      ≤ (evaluate_listing exSnapX (some 50) 0 false [] defaultSettings).1)
    ∧ ((evaluate_listing exSnapX none 0 false [] defaultSettings).1
      ≤ (evaluate_listing exSnapX none 0 false ["motivated"]
          defaultSettings).1) :=
  ⟨c6_score_monotone.1 defaultSettings exBelowSnap none 0 false []
      (some 900000) (by decide),
    c6_score_monotone.2.1 defaultSettings exSnapX none false [] 0 (1/10)
      (by decide) (by decide),
    c6_score_monotone.2.2.1 defaultSettings exSnapX 0 false [] 10 50
      (by decide) (by decide),
    c6_score_monotone.2.2.2 defaultSettings exSnapX none 0 false []
      ["motivated"] (by decide)⟩

/-! Stability infrastructure for the output ranker. -/

theorem enumFrom_fst_lt (n : ℕ) (l : List Enriched) :
    (List.enumFrom n l).Pairwise (fun a b => a.1 < b.1) := by
  induction l generalizing n with
  | nil => exact List.Pairwise.nil
  | cons x xs ih =>
    refine List.Pairwise.cons ?_ (ih (n + 1))
    rintro ⟨i, e⟩ hy
    have h3 := List.mem_enumFrom hy
    exact lt_of_lt_of_le (Nat.lt_succ_self n) h3.1

theorem enum_fst_lt (l : List Enriched) :
    l.enum.Pairwise (fun a b => a.1 < b.1) :=
  enumFrom_fst_lt 0 l

theorem orderedInsert_lexAfter (x : ℕ × Enriched) (L : List (ℕ × Enriched))
    (hp : L.Pairwise lexAfter)
    (htie : ∀ y ∈ L, x.2.score = y.2.score → x.1 < y.1) :
    (List.orderedInsert (fun a b => b.2.score ≤ a.2.score) x L).Pairwise
      lexAfter := by
  induction L with
  | nil => exact List.pairwise_singleton _ x
  | cons b t ih =>
    rw [List.orderedInsert]
    split_ifs with hr
    · refine List.Pairwise.cons ?_ hp
      intro y hy
      have hyscore : y.2.score ≤ b.2.score := by
        rcases List.mem_cons.mp hy with rfl | hyt
        · exact le_refl _
        · rcases (List.pairwise_cons.mp hp).1 y hyt with h | ⟨heq, _⟩
          · exact le_of_lt h
          · exact le_of_eq heq.symm
      rcases lt_or_eq_of_le (le_trans hyscore hr) with hlt | heq
      · exact Or.inl hlt
      · exact Or.inr ⟨heq.symm, htie y hy heq.symm⟩
    · have hbx : x.2.score < b.2.score := not_le.mp hr
      refine List.Pairwise.cons ?_
        (ih (List.pairwise_cons.mp hp).2
          (fun y hy hs => htie y (List.mem_cons_of_mem b hy) hs))
      intro y hy
      rcases (List.mem_orderedInsert _).mp hy with rfl | hyt
      · exact Or.inl hbx
      · exact (List.pairwise_cons.mp hp).1 y hyt

theorem insertionSort_lexAfter (L : List (ℕ × Enriched))
    (hp : L.Pairwise (fun a b => a.1 < b.1)) :
    (List.insertionSort (fun a b => b.2.score ≤ a.2.score) L).Pairwise
      lexAfter := by
  induction L with
  | nil => exact List.Pairwise.nil
  | cons x xs ih =>
    rw [List.insertionSort]
    apply orderedInsert_lexAfter
    · exact ih (List.pairwise_cons.mp hp).2
    · intro y hy _
      exact (List.pairwise_cons.mp hp).1 y ((List.mem_insertionSort _).mp hy)

/-- C7: `build_outputs` ranks by one stable descending sort of the enriched
records and serves two projections of that single ranking: the top-`top_k`
full deal records and the top-10 condensed alert records, the 10 being fixed
independently of the configurable `top_k`.  The ranking is a permutation of
the input, sorted by score descending, and equals the index-tagged sort whose
pairwise order is strictly "higher score first, ties by original input
position" — the stable tie-break of Python's `sorted`. -/
theorem c7_output_ranker (l : List Enriched) (k : ℕ) :
    build_outputs l k
        = (((pySortDesc l).take 10).map toAlert,
            ((pySortDesc l).take k).map toDeal)
    ∧ (pySortDesc l).Perm l
    ∧ (pySortDesc l).Pairwise (fun a b => b.score ≤ a.score)
    ∧ pySortDesc l = (rankedTag l).map Prod.snd
    ∧ (rankedTag l).Pairwise lexAfter := by
  refine ⟨rfl, List.perm_insertionSort _ l, ?_, ?_, ?_⟩
  · haveI ht : IsTotal Enriched (fun a b => b.score ≤ a.score) :=
      ⟨fun a b => le_total b.score a.score⟩
    haveI htr : IsTrans Enriched (fun a b => b.score ≤ a.score) :=
      ⟨fun a b c hab hbc => le_trans hbc hab⟩
    exact List.sorted_insertionSort _ l
  · unfold pySortDesc rankedTag
    have hms := List.map_insertionSort
      (fun a b : ℕ × Enriched => b.2.score ≤ a.2.score)
      (fun a b : Enriched => b.score ≤ a.score) Prod.snd l.enum
      (fun a _ b _ => Iff.rfl)
    rw [hms, List.enum_map_snd]
  · exact insertionSort_lexAfter l.enum (enum_fst_lt l)

/-! Pipeline infrastructure: effects of one `processOne` call. -/

theorem updRow_listing (p : Snapshot) (t : ℤ) (r : Row) :
    (updRow p t r).listing_id = r.listing_id := by
  unfold updRow
  split_ifs with h
  · unfold payloadRow withSig
    simp only []
    have he : r.listing_id = p.listing_id := by simpa using h
    exact he.symm
  · rfl

theorem upsSig_withSig (p : Snapshot) : upsSig (withSig p) = signature_for p := by
  unfold upsSig withSig
  dsimp only
  split_ifs <;> rfl

theorem upd_compose (p : Snapshot) (now : ℤ) (r : Row) :
    seenUpd p.listing_id now (upsUpd (withSig p) now r) = updRow p now r := by
  unfold seenUpd upsUpd updRow
  have hid : (withSig p).listing_id = p.listing_id := rfl
  rw [hid]
  by_cases hg : (r.listing_id == p.listing_id) = true
  · rw [if_pos hg, if_pos hg]
    rw [upsSig_withSig]
    have hg2 : ((payloadRow (withSig p) (signature_for p) r.first_seen
        now).listing_id == p.listing_id) = true := by
      unfold payloadRow withSig
      simp
    rw [if_pos hg2]
    unfold payloadRow
    rfl
  · rw [if_neg hg, if_neg hg, if_neg hg]

theorem find?_unique (rows : List Row)
    (hn : (rows.map (·.listing_id)).Nodup) (r' : Row) (h : r' ∈ rows) :
    rows.find? (fun r => r.listing_id == r'.listing_id) = some r' := by
  induction rows with
  | nil => cases h
  | cons x xs ih =>
    rcases List.mem_cons.mp h with rfl | hmem
    · simp [List.find?_cons]
    · have hx : x.listing_id ≠ r'.listing_id := by
        intro he
        have hm : r'.listing_id ∈ xs.map (·.listing_id) :=
          List.mem_map.mpr ⟨r', hmem, rfl⟩
        rw [← he] at hm
        exact (List.nodup_cons.mp (by simpa using hn)).1 hm
      have hg : (x.listing_id == r'.listing_id) = false := by
        simpa using hx
      rw [List.find?_cons, hg]
      exact ih (List.nodup_cons.mp (by simpa using hn)).2 hmem

theorem rowFor_unique (db : DB) (hn : (db.rows.map (·.listing_id)).Nodup)
    (r' : Row) (h : r' ∈ db.rows) : rowFor db r'.listing_id = some r' :=
  find?_unique db.rows hn r' h

theorem processOne_rows_present (st : Settings) (now : ℤ) (db : DB)
    (p : Snapshot) (r0 : Row) (h : rowFor db p.listing_id = some r0) :
    (processOne st now db p).2.rows = db.rows.map (updRow p now) := by
  have hfind : db.rows.find?
      (fun rr => rr.listing_id == (withSig p).listing_id) = some r0 := h
  unfold processOne upsert_listing_current
  dsimp only
  rw [hfind]
  dsimp only
  cases hc : priceChangedOf r0 (withSig p) with
  | true =>
    simp only [hc, if_true]
    unfold mark_seen record_event
    dsimp only
    rw [List.map_map]
    exact List.map_congr_left (fun r _ => upd_compose p now r)
  | false =>
    simp only [hc, Bool.false_eq_true, if_false]
    unfold mark_seen
    dsimp only
    rw [List.map_map]
    exact List.map_congr_left (fun r _ => upd_compose p now r)

theorem processOne_rows_absent (st : Settings) (now : ℤ) (db : DB)
    (p : Snapshot) (h : rowFor db p.listing_id = none) :
    (processOne st now db p).2.rows
      = db.rows ++ [payloadRow (withSig p) (signature_for p) now now] := by
  have hfind : db.rows.find?
      (fun rr => rr.listing_id == (withSig p).listing_id) = none := h
  unfold processOne upsert_listing_current
  dsimp only
  rw [hfind]
  dsimp only
  simp only [Bool.false_eq_true, if_false]
  unfold mark_seen
  dsimp only
  rw [show (withSig p).listing_id = p.listing_id from rfl]
  rw [List.map_append]
  have h1 : db.rows.map (seenUpd p.listing_id now) = db.rows := by
    have hall := List.find?_eq_none.mp hfind
    have hpt : ∀ r ∈ db.rows, seenUpd p.listing_id now r = r := by
      intro r hr
      unfold seenUpd
      rw [if_neg]
      intro hg
      exact hall r hr (by simpa using hg)
    calc db.rows.map (seenUpd p.listing_id now)
        = db.rows.map (fun r => r) := List.map_congr_left hpt
    _ = db.rows := by simp
  have h2 : [payloadRow (withSig p) (upsSig (withSig p)) now now].map
      (seenUpd p.listing_id now)
      = [payloadRow (withSig p) (signature_for p) now now] := by
    rw [upsSig_withSig]
    have hg : ((payloadRow (withSig p) (signature_for p) now
        now).listing_id == p.listing_id) = true := by
      unfold payloadRow withSig
      simp
    simp only [List.map_cons, List.map_nil]
    unfold seenUpd
    rw [if_pos hg]
    unfold payloadRow
    rfl
  rw [h1, h2]

theorem processOne_presence (st : Settings) (now : ℤ) (db : DB)
    (p : Snapshot) :
    (processOne st now db p).2.presence
      = db.presence ++ [(p.listing_id, now)] := by
  unfold processOne upsert_listing_current
  dsimp only
  cases hf : db.rows.find?
      (fun rr => rr.listing_id == (withSig p).listing_id) with
  | some row =>
    dsimp only
    cases hc : priceChangedOf row (withSig p) with
    | true => simp only [hc, if_pos rfl]; rfl
    | false => simp only [hc, Bool.false_eq_true, if_false]; rfl
  | none =>
    dsimp only
    simp only [Bool.false_eq_true, if_false]
    rfl

theorem processOne_events_shape (st : Settings) (now : ℤ) (db : DB)
    (p : Snapshot) :
    (processOne st now db p).2.events = db.events
    ∨ ∃ old new, (processOne st now db p).2.events
        = db.events ++ [⟨p.listing_id, now, "price_change", old, new⟩] := by
  unfold processOne upsert_listing_current
  dsimp only
  cases hf : db.rows.find?
      (fun rr => rr.listing_id == (withSig p).listing_id) with
  | some row =>
    dsimp only
    cases hc : priceChangedOf row (withSig p) with
    | true =>
      simp only [hc, if_pos rfl]
      exact Or.inr ⟨pyStr row.price, pyStr (withSig p).price, rfl⟩
    | false =>
      simp only [hc, Bool.false_eq_true, if_false]
      exact Or.inl rfl
  | none =>
    dsimp only
    simp only [Bool.false_eq_true, if_false]
    exact Or.inl rfl

theorem processOne_events_priceEq (st : Settings) (now : ℤ) (db : DB)
    (p : Snapshot) (r0 : Row) (h : rowFor db p.listing_id = some r0)
    (hp : r0.price = p.price) :
    (processOne st now db p).2.events = db.events := by
  have hfind : db.rows.find?
      (fun rr => rr.listing_id == (withSig p).listing_id) = some r0 := h
  have hchanged : priceChangedOf r0 (withSig p) = false := by
    unfold priceChangedOf
    rw [show (withSig p).price = p.price from rfl, ← hp]
    cases r0.price <;> simp
  unfold processOne upsert_listing_current
  dsimp only
  rw [hfind]
  dsimp only
  simp only [hchanged, Bool.false_eq_true, if_false]
  rfl

theorem processOne_eventsFor_other (st : Settings) (now : ℤ) (db : DB)
    (p : Snapshot) (id : String) (hne : id ≠ p.listing_id) :
    eventsFor (processOne st now db p).2 id = eventsFor db id := by
  rcases processOne_events_shape st now db p with he | ⟨old, new, he⟩
  · unfold eventsFor
    rw [he]
  · unfold eventsFor
    rw [he, List.filter_append]
    have hg : (p.listing_id == id) = false := by
      simpa using (Ne.symm hne)
    simp [List.filter_cons, hg]

theorem processOne_rowFor_other (st : Settings) (now : ℤ) (db : DB)
    (p : Snapshot) (id : String) (hne : id ≠ p.listing_id) :
    rowFor (processOne st now db p).2 id = rowFor db id := by
  cases h : rowFor db p.listing_id with
  | some r0 =>
    have hrows := processOne_rows_present st now db p r0 h
    unfold rowFor
    rw [hrows, find?_map_listing (updRow p now) (updRow_listing p now)]
    cases hf : db.rows.find? (fun r => r.listing_id == id) with
    | none => rfl
    | some r =>
      have hru : r.listing_id = id := by simpa using List.find?_some hf
      show some (updRow p now r) = some r
      unfold updRow
      rw [if_neg]
      intro hg
      exact hne (hru ▸ (by simpa using hg))
  | none =>
    have hrows := processOne_rows_absent st now db p h
    unfold rowFor
    rw [hrows, List.find?_append]
    have hg : ((payloadRow (withSig p) (signature_for p) now
        now).listing_id == id) = false := by
      unfold payloadRow withSig
      simpa using (Ne.symm hne)
    simp [List.find?_cons, hg]

/-! Effects of the missing-reconciliation fold. -/

theorem mark_missing_eventsFor_self (db : DB) (id : String) (t : ℤ) :
    eventsFor (mark_missing db id t) id
      = eventsFor db id ++ [missingEvent id t] := by
  unfold mark_missing record_event eventsFor missingEvent
  dsimp only
  rw [List.filter_append]
  have hg : (id == id) = true := by simp
  simp [List.filter_cons, hg]

theorem mark_missing_eventsFor_other (db : DB) (id m : String) (t : ℤ)
    (hne : id ≠ m) :
    eventsFor (mark_missing db m t) id = eventsFor db id := by
  unfold mark_missing record_event eventsFor
  dsimp only
  rw [List.filter_append]
  have hg : (m == id) = false := by simpa using (Ne.symm hne)
  simp [List.filter_cons, hg]

theorem mark_missing_rowFor_self (db : DB) (id : String) (t : ℤ) :
    rowFor (mark_missing db id t) id
      = (rowFor db id).map
          (fun r => { r with last_seen := t, is_active := false }) := by
  unfold mark_missing record_event rowFor
  dsimp only
  rw [find?_map_listing (missUpd id t) (missUpd_listing id t)]
  cases hf : db.rows.find? (fun r => r.listing_id == id) with
  | none => rfl
  | some r =>
    have hg0 := List.find?_some hf
    have hg : (r.listing_id == id) = true := hg0
    show some (missUpd id t r) = some _
    unfold missUpd
    rw [if_pos hg]

theorem mark_missing_rowFor_other (db : DB) (id m : String) (t : ℤ)
    (hne : id ≠ m) :
    rowFor (mark_missing db m t) id = rowFor db id := by
  unfold mark_missing record_event rowFor
  dsimp only
  rw [find?_map_listing (missUpd m t) (missUpd_listing m t)]
  cases hf : db.rows.find? (fun r => r.listing_id == id) with
  | none => rfl
  | some r =>
    have hg0 := List.find?_some hf
    have hru : r.listing_id = id := by simpa using hg0
    show some (missUpd m t r) = some r
    unfold missUpd
    rw [if_neg]
    intro hg
    exact hne (hru ▸ (by simpa using hg))

theorem foldMissing_not_mem (now : ℤ) (mids : List String) :
    ∀ (db : DB) (id : String), id ∉ mids →
    eventsFor (mids.foldl (fun d i => mark_missing d i now) db) id
        = eventsFor db id
    ∧ rowFor (mids.foldl (fun d i => mark_missing d i now) db) id
        = rowFor db id := by
  induction mids with
  | nil => intro db id _; exact ⟨rfl, rfl⟩
  | cons m ms ih =>
    intro db id h
    have hne : id ≠ m := fun he => h (he ▸ List.mem_cons_self m ms)
    have hm : id ∉ ms := fun hx => h (List.mem_cons_of_mem m hx)
    simp only [List.foldl_cons]
    rcases ih (mark_missing db m now) id hm with ⟨he, hr⟩
    exact ⟨he.trans (mark_missing_eventsFor_other db id m now hne),
      hr.trans (mark_missing_rowFor_other db id m now hne)⟩

theorem foldMissing_mem (now : ℤ) (mids : List String) :
    ∀ (db : DB) (id : String), mids.Nodup → id ∈ mids →
    eventsFor (mids.foldl (fun d i => mark_missing d i now) db) id
        = eventsFor db id ++ [missingEvent id now]
    ∧ rowFor (mids.foldl (fun d i => mark_missing d i now) db) id
        = (rowFor db id).map
            (fun r => { r with last_seen := now, is_active := false }) := by
  induction mids with
  | nil => intro db id _ h; cases h
  | cons m ms ih =>
    intro db id hnd hmem
    simp only [List.foldl_cons]
    rcases List.mem_cons.mp hmem with rfl | hmem'
    · have hnot : id ∉ ms := (List.nodup_cons.mp hnd).1
      rcases foldMissing_not_mem now ms (mark_missing db id now) id hnot
        with ⟨he, hr⟩
      exact ⟨he.trans (mark_missing_eventsFor_self db id now),
        hr.trans (mark_missing_rowFor_self db id now)⟩
    · have hne : id ≠ m := by
        intro he
        exact (List.nodup_cons.mp hnd).1 (he ▸ hmem')
      rcases ih (mark_missing db m now) id (List.nodup_cons.mp hnd).2 hmem'
        with ⟨he, hr⟩
      refine ⟨?_, ?_⟩
      · rw [he, mark_missing_eventsFor_other db id m now hne]
      · rw [hr, mark_missing_rowFor_other db id m now hne]

/-! Preservation of the one-row-per-id invariant. -/

theorem rows_ids_map (f : Row → Row)
    (hf : ∀ r, (f r).listing_id = r.listing_id) (rows : List Row) :
    (rows.map f).map (·.listing_id) = rows.map (·.listing_id) := by
  rw [List.map_map]
  exact List.map_congr_left (fun r _ => hf r)

theorem processOne_ids (st : Settings) (now : ℤ) (db : DB) (p : Snapshot) :
    ((processOne st now db p).2.rows.map (·.listing_id))
        = db.rows.map (·.listing_id)
    ∨ (rowFor db p.listing_id = none
        ∧ (processOne st now db p).2.rows.map (·.listing_id)
            = db.rows.map (·.listing_id) ++ [p.listing_id]) := by
  cases h : rowFor db p.listing_id with
  | some r0 =>
    left
    rw [processOne_rows_present st now db p r0 h]
    exact rows_ids_map (updRow p now) (updRow_listing p now) db.rows
  | none =>
    right
    refine ⟨rfl, ?_⟩
    rw [processOne_rows_absent st now db p h, List.map_append]
    rfl

theorem processOne_nodup (st : Settings) (now : ℤ) (db : DB) (p : Snapshot)
    (hn : (db.rows.map (·.listing_id)).Nodup) :
    ((processOne st now db p).2.rows.map (·.listing_id)).Nodup := by
  rcases processOne_ids st now db p with he | ⟨hnone, he⟩
  · rw [he]; exact hn
  · rw [he]
    refine List.Nodup.append hn (List.nodup_singleton _) ?_
    intro a ha hb
    rcases List.mem_singleton.mp hb with rfl
    rcases List.mem_map.mp ha with ⟨r, hr, hrid⟩
    have hall := List.find?_eq_none.mp hnone
    exact hall r hr (by simpa using hrid)

theorem enrichLoop_nodup (st : Settings) (now : ℤ) (batch : List Snapshot) :
    ∀ (db : DB), (db.rows.map (·.listing_id)).Nodup →
    ((enrichLoop st now batch db).2.rows.map (·.listing_id)).Nodup := by
  induction batch with
  | nil => intro db hn; exact hn
  | cons p ps ih =>
    intro db hn
    exact ih (processOne st now db p).2 (processOne_nodup st now db p hn)

theorem foldMissing_ids (now : ℤ) (mids : List String) :
    ∀ (db : DB),
    ((mids.foldl (fun d i => mark_missing d i now) db).rows.map
        (·.listing_id))
      = db.rows.map (·.listing_id) := by
  induction mids with
  | nil => intro db; rfl
  | cons m ms ih =>
    intro db
    simp only [List.foldl_cons]
    rw [ih (mark_missing db m now)]
    unfold mark_missing record_event
    dsimp only
    exact rows_ids_map (missUpd m now) (missUpd_listing m now) db.rows

theorem enrich_nodup (st : Settings) (b : List Snapshot) (t : ℤ) (db : DB)
    (hn : (db.rows.map (·.listing_id)).Nodup) :
    (((enrich_listings b st t db).2.rows.map (·.listing_id))).Nodup := by
  unfold enrich_listings
  dsimp only
  rw [foldMissing_ids]
  exact enrichLoop_nodup st t b db hn

theorem enrichLoop_preserve_other (st : Settings) (now : ℤ)
    (batch : List Snapshot) :
    ∀ (db : DB) (id : String), id ∉ batchIds batch →
    rowFor (enrichLoop st now batch db).2 id = rowFor db id
    ∧ eventsFor (enrichLoop st now batch db).2 id = eventsFor db id := by
  induction batch with
  | nil => intro db id _; exact ⟨rfl, rfl⟩
  | cons p ps ih =>
    intro db id h
    have hne : id ≠ p.listing_id := by
      intro he
      exact h (he ▸ List.mem_cons_self _ _)
    have hm : id ∉ batchIds ps := by
      intro hx
      exact h (List.mem_cons_of_mem _ hx)
    rcases ih (processOne st now db p).2 id hm with ⟨hr, he⟩
    exact ⟨hr.trans (processOne_rowFor_other st now db p id hne),
      he.trans (processOne_eventsFor_other st now db p id hne)⟩

theorem enrich_preserves_inactive (st : Settings) (b : List Snapshot) (t : ℤ)
    (db : DB) (id : String) (r : Row)
    (hn : (db.rows.map (·.listing_id)).Nodup)
    (h : rowFor db id = some r) (hact : r.is_active = false)
    (hnb : id ∉ batchIds b) :
    eventsFor (enrich_listings b st t db).2 id = eventsFor db id
    ∧ rowFor (enrich_listings b st t db).2 id = some r := by
  rcases enrichLoop_preserve_other st t b db id hnb with ⟨hLr, hLe⟩
  have hnotA : id ∉
      ((db.rows.filter (·.is_active)).map (·.listing_id)).dedup := by
    intro hx
    rcases List.mem_map.mp (List.mem_dedup.mp hx) with ⟨r', hr', hid⟩
    rcases List.mem_filter.mp hr' with ⟨hmem, hactive⟩
    have hactive' : r'.is_active = true := by simpa using hactive
    have h2 : rowFor db id = some r' := by
      rw [← hid]
      exact rowFor_unique db hn r' hmem
    rw [h] at h2
    injection h2 with h3
    rw [← h3] at hactive'
    rw [hact] at hactive'
    exact Bool.noConfusion hactive'
  have hnotm : id ∉
      (((db.rows.filter (·.is_active)).map (·.listing_id)).dedup).filter
        (fun i => !((b.map (·.listing_id)).contains i)) :=
    fun hx => hnotA (List.mem_filter.mp hx).1
  unfold enrich_listings
  dsimp only
  rcases foldMissing_not_mem t _ (enrichLoop st t b db).2 id hnotm
    with ⟨hFe, hFr⟩
  exact ⟨hFe.trans hLe, hFr.trans (hLr.trans h)⟩

theorem applyRuns_preserves (st : Settings) (id : String)
    (runs : List (List Snapshot × ℤ)) :
    ∀ (db2 : DB) (r2 : Row), (db2.rows.map (·.listing_id)).Nodup →
    rowFor db2 id = some r2 → r2.is_active = false →
    (∀ pr ∈ runs, id ∉ batchIds pr.1) →
    eventsFor (applyRuns st runs db2) id = eventsFor db2 id := by
  induction runs with
  | nil => intro db2 r2 _ _ _ _; rfl
  | cons pr rest ih =>
    intro db2 r2 hn hr hact hall
    have hnb : id ∉ batchIds pr.1 := hall pr (List.mem_cons_self _ _)
    rcases enrich_preserves_inactive st pr.1 pr.2 db2 id r2 hn hr hact hnb
      with ⟨he, hrr⟩
    have hsteps : applyRuns st (pr :: rest) db2
        = applyRuns st rest (enrich_listings pr.1 st pr.2 db2).2 := rfl
    rw [hsteps]
    rw [ih (enrich_listings pr.1 st pr.2 db2).2 r2
      (enrich_nodup st pr.1 pr.2 db2 hn) hrr hact
      (fun q hq => hall q (List.mem_cons_of_mem _ hq))]
    exact he

/-- C2: a listing id that is active at the start of a run and absent from the
run's batch receives exactly one `missing` event, timestamped with the run's
clock, and its row becomes inactive; and as long as the id stays absent from
every later run's batch, no further `missing` event is ever appended for it —
once inactive, the id is no longer compared against the batch. -/
theorem c2_missing_event_once (st : Settings) (batch : List Snapshot)
    (now : ℤ) (db : DB) (id : String) (r : Row)
    (hn : (db.rows.map (·.listing_id)).Nodup)
    (h : rowFor db id = some r) (hact : r.is_active = true)
    (hnb : id ∉ batchIds batch) :
    eventsFor (enrich_listings batch st now db).2 id
        = eventsFor db id ++ [missingEvent id now]
    ∧ rowFor (enrich_listings batch st now db).2 id
        = some { r with last_seen := now, is_active := false }
    ∧ ∀ runs : List (List Snapshot × ℤ),
        (∀ pr ∈ runs, id ∉ batchIds pr.1) →
        eventsFor (applyRuns st runs (enrich_listings batch st now db).2) id
          = eventsFor (enrich_listings batch st now db).2 id := by
  have hrid : r.listing_id = id := by simpa using List.find?_some h
  have hrm : r ∈ db.rows := List.mem_of_find?_eq_some h
  rcases enrichLoop_preserve_other st now batch db id hnb with ⟨hLr, hLe⟩
  have hA : id ∈ ((db.rows.filter (·.is_active)).map (·.listing_id)).dedup :=
    List.mem_dedup.mpr
      (List.mem_map.mpr ⟨r, List.mem_filter.mpr ⟨hrm, by simpa using hact⟩,
        hrid⟩)
  have hmm : id ∈
      (((db.rows.filter (·.is_active)).map (·.listing_id)).dedup).filter
        (fun i => !((batch.map (·.listing_id)).contains i)) :=
    List.mem_filter.mpr ⟨hA, by
      have hc : ((batch.map (·.listing_id)).contains id) = false := by
        simp
        intro x hx he
        exact hnb (List.mem_map.mpr ⟨x, hx, he⟩)
      show (!((batch.map (·.listing_id)).contains id)) = true
      rw [hc]
      rfl⟩
  have hnodupM :
      ((((db.rows.filter (·.is_active)).map (·.listing_id)).dedup).filter
        (fun i => !((batch.map (·.listing_id)).contains i))).Nodup :=
    (List.nodup_dedup _).filter _
  rcases foldMissing_mem now _ (enrichLoop st now batch db).2 id hnodupM hmm
    with ⟨hFe, hFr⟩
  have part1 : eventsFor (enrich_listings batch st now db).2 id
      = eventsFor db id ++ [missingEvent id now] := by
    unfold enrich_listings
    dsimp only
    rw [hFe, hLe]
  have part2 : rowFor (enrich_listings batch st now db).2 id
      = some { r with last_seen := now, is_active := false } := by
    unfold enrich_listings
    dsimp only
    rw [hFr, hLr, h]
    rfl
  refine ⟨part1, part2, ?_⟩
  intro runs hruns
  exact applyRuns_preserves st id runs (enrich_listings batch st now db).2
    { r with last_seen := now, is_active := false }
    (enrich_nodup st batch now db hn) part2 rfl hruns

/-- C2 witness: X is active after the first example run; running an empty
batch one day later appends exactly the one `missing` event, deactivates the
row, and a further later run without X appends nothing more. -/
theorem c2_missing_event_once_witness :
    eventsFor (enrich_listings [] defaultSettings 86400 exRunA.2).2 "X"
        = eventsFor exRunA.2 "X" ++ [missingEvent "X" 86400]
    ∧ rowFor (enrich_listings [] defaultSettings 86400 exRunA.2).2 "X"
        = some { exRowA with last_seen := 86400, is_active := false }
    ∧ eventsFor (applyRuns defaultSettings [([], 200000)]
          (enrich_listings [] defaultSettings 86400 exRunA.2).2) "X"
        = eventsFor (enrich_listings [] defaultSettings 86400 exRunA.2).2
            "X" :=
  ⟨(c2_missing_event_once defaultSettings [] 86400 exRunA.2 "X" exRowA
      (by decide) (by decide) (by decide) (by decide)).1,
    (c2_missing_event_once defaultSettings [] 86400 exRunA.2 "X" exRowA
      (by decide) (by decide) (by decide) (by decide)).2.1,
    (c2_missing_event_once defaultSettings [] 86400 exRunA.2 "X" exRowA
      (by decide) (by decide) (by decide) (by decide)).2.2 [([], 200000)]
      (by decide)⟩

/-! Shape of the store after a full run, for the re-run frame property. -/

theorem processOne_rowFor_self (st : Settings) (now : ℤ) (db : DB)
    (p : Snapshot) :
    ∃ fs, rowFor (processOne st now db p).2 p.listing_id
      = some (payloadRow (withSig p) (signature_for p) fs now) := by
  cases h : rowFor db p.listing_id with
  | some r0 =>
    refine ⟨r0.first_seen, ?_⟩
    have hrows := processOne_rows_present st now db p r0 h
    unfold rowFor
    rw [hrows, find?_map_listing (updRow p now) (updRow_listing p now)]
    have hf : db.rows.find? (fun r => r.listing_id == p.listing_id)
        = some r0 := h
    rw [hf]
    have hg0 := List.find?_some hf
    have hg : (r0.listing_id == p.listing_id) = true := hg0
    show some (updRow p now r0) = _
    unfold updRow
    rw [if_pos hg]
  | none =>
    refine ⟨now, ?_⟩
    have hrows := processOne_rows_absent st now db p h
    unfold rowFor
    rw [hrows, List.find?_append]
    have hf : db.rows.find? (fun r => r.listing_id == p.listing_id)
        = none := h
    have hg : ((payloadRow (withSig p) (signature_for p) now
        now).listing_id == p.listing_id) = true := by
      unfold payloadRow withSig
      simp
    simp [hf, List.find?_cons, hg]

theorem enrichLoop_batchRow (st : Settings) (now : ℤ) (batch : List Snapshot) :
    ∀ (db : DB) (p : Snapshot), (batchIds batch).Nodup → p ∈ batch →
    ∃ fs, rowFor (enrichLoop st now batch db).2 p.listing_id
      = some (payloadRow (withSig p) (signature_for p) fs now) := by
  induction batch with
  | nil => intro db p _ h; cases h
  | cons q qs ih =>
    intro db p hnd hmem
    have hnd2 : (q.listing_id :: batchIds qs).Nodup := hnd
    rcases List.mem_cons.mp hmem with rfl | hmem'
    · rcases processOne_rowFor_self st now db p with ⟨fs, hself⟩
      have hnot : p.listing_id ∉ batchIds qs :=
        (List.nodup_cons.mp hnd2).1
      refine ⟨fs, ?_⟩
      show rowFor (enrichLoop st now qs (processOne st now db p).2).2
        p.listing_id = _
      rw [(enrichLoop_preserve_other st now qs (processOne st now db p).2
        p.listing_id hnot).1]
      exact hself
    · exact ih (processOne st now db q).2 p
        (List.nodup_cons.mp hnd2).2 hmem'

theorem enrich_batchRow (st : Settings) (now : ℤ) (batch : List Snapshot)
    (db : DB) (p : Snapshot) (hnd : (batchIds batch).Nodup)
    (hmem : p ∈ batch) :
    ∃ fs, rowFor (enrich_listings batch st now db).2 p.listing_id
      = some (payloadRow (withSig p) (signature_for p) fs now) := by
  rcases enrichLoop_batchRow st now batch db p hnd hmem with ⟨fs, hrow⟩
  have hnotm : p.listing_id ∉
      (((db.rows.filter (·.is_active)).map (·.listing_id)).dedup).filter
        (fun i => !((batch.map (·.listing_id)).contains i)) := by
    intro hx
    have hfl := (List.mem_filter.mp hx).2
    have hcon : ((batch.map (·.listing_id)).contains p.listing_id) = true := by
      simp
      exact ⟨p, hmem, rfl⟩
    rw [hcon] at hfl
    cases hfl
  unfold enrich_listings
  dsimp only
  refine ⟨fs, ?_⟩
  rw [(foldMissing_not_mem now _ (enrichLoop st now batch db).2 p.listing_id
    hnotm).2]
  exact hrow

theorem processOne_mem_shape (st : Settings) (now : ℤ) (db : DB)
    (p : Snapshot) (r' : Row) (h : r' ∈ (processOne st now db p).2.rows) :
    r'.listing_id = p.listing_id
    ∨ (r' ∈ db.rows ∧ r'.listing_id ≠ p.listing_id) := by
  cases h0 : rowFor db p.listing_id with
  | some r0 =>
    rw [processOne_rows_present st now db p r0 h0] at h
    rcases List.mem_map.mp h with ⟨r1, hr1, rfl⟩
    unfold updRow
    split_ifs with hg
    · left
      unfold payloadRow withSig
      rfl
    · right
      refine ⟨hr1, ?_⟩
      intro he
      exact hg (by simpa using he)
  | none =>
    rw [processOne_rows_absent st now db p h0] at h
    rcases List.mem_append.mp h with hin | hnew
    · right
      refine ⟨hin, ?_⟩
      intro he
      exact List.find?_eq_none.mp h0 r' hin (by simpa using he)
    · left
      rcases List.mem_singleton.mp hnew with rfl
      unfold payloadRow withSig
      rfl

theorem enrichLoop_mem_shape (st : Settings) (now : ℤ)
    (batch : List Snapshot) :
    ∀ (db : DB) (r' : Row), r' ∈ (enrichLoop st now batch db).2.rows →
    r'.listing_id ∈ batchIds batch
    ∨ (r' ∈ db.rows ∧ r'.listing_id ∉ batchIds batch) := by
  induction batch with
  | nil =>
    intro db r' h
    right
    exact ⟨h, by simp [batchIds]⟩
  | cons p ps ih =>
    intro db r' h
    rcases ih (processOne st now db p).2 r' h with hin | ⟨hmem, hnot⟩
    · left
      exact List.mem_cons_of_mem _ hin
    · rcases processOne_mem_shape st now db p r' hmem with he | ⟨hmem0, hne⟩
      · left
        exact he ▸ List.mem_cons_self _ _
      · right
        refine ⟨hmem0, ?_⟩
        intro hx
        rcases List.mem_cons.mp hx with he | hx'
        · exact hne he
        · exact hnot hx'

theorem mark_missing_active_mem (db : DB) (m : String) (t : ℤ) (r' : Row)
    (h : r' ∈ (mark_missing db m t).rows) (hact : r'.is_active = true) :
    r' ∈ db.rows := by
  unfold mark_missing record_event at h
  dsimp only at h
  rcases List.mem_map.mp h with ⟨r0, hr0, rfl⟩
  by_cases hg : (r0.listing_id == m) = true
  · exfalso
    unfold missUpd at hact
    rw [if_pos hg] at hact
    exact Bool.noConfusion hact
  · show missUpd m t r0 ∈ db.rows
    unfold missUpd
    rw [if_neg hg]
    exact hr0

theorem foldMissing_active_mem (now : ℤ) (mids : List String) :
    ∀ (db : DB) (r' : Row),
    r' ∈ (mids.foldl (fun d i => mark_missing d i now) db).rows →
    r'.is_active = true → r' ∈ db.rows := by
  induction mids with
  | nil => intro db r' h _; exact h
  | cons m ms ih =>
    intro db r' h hact
    simp only [List.foldl_cons] at h
    exact mark_missing_active_mem db m now r'
      (ih (mark_missing db m now) r' h hact) hact

theorem mark_missing_keeps_inactive (db : DB) (m : String) (t : ℤ)
    (id : String) (h : ∀ r ∈ db.rows, r.listing_id = id →
      r.is_active = false) :
    ∀ r ∈ (mark_missing db m t).rows, r.listing_id = id →
      r.is_active = false := by
  intro r hr hid
  unfold mark_missing record_event at hr
  dsimp only at hr
  rcases List.mem_map.mp hr with ⟨r0, hr0, rfl⟩
  unfold missUpd at hid ⊢
  split_ifs at hid ⊢ with hg
  · rfl
  · exact h r0 hr0 hid

theorem mark_missing_self_inactive (db : DB) (id : String) (t : ℤ) :
    ∀ r ∈ (mark_missing db id t).rows, r.listing_id = id →
      r.is_active = false := by
  intro r hr hid
  unfold mark_missing record_event at hr
  dsimp only at hr
  rcases List.mem_map.mp hr with ⟨r0, hr0, rfl⟩
  by_cases hg : (r0.listing_id == id) = true
  · show (missUpd id t r0).is_active = false
    unfold missUpd
    rw [if_pos hg]
  · exfalso
    unfold missUpd at hid
    rw [if_neg hg] at hid
    exact hg (by simpa using hid)

theorem foldMissing_keeps_inactive (now : ℤ) (id : String) :
    ∀ (ms : List String) (db : DB),
    (∀ r ∈ db.rows, r.listing_id = id → r.is_active = false) →
    ∀ r ∈ (ms.foldl (fun d i => mark_missing d i now) db).rows,
      r.listing_id = id → r.is_active = false := by
  intro ms
  induction ms with
  | nil => intro db hk r hr hid; exact hk r hr hid
  | cons m2 ms2 ih2 =>
    intro db hk r hr hid
    simp only [List.foldl_cons] at hr
    exact ih2 (mark_missing db m2 now)
      (mark_missing_keeps_inactive db m2 now id hk) r hr hid

theorem foldMissing_marks_inactive (now : ℤ) (mids : List String) :
    ∀ (db : DB) (id : String), id ∈ mids →
    ∀ r ∈ (mids.foldl (fun d i => mark_missing d i now) db).rows,
      r.listing_id = id → r.is_active = false := by
  induction mids with
  | nil => intro db id h; cases h
  | cons m ms ih =>
    intro db id hmem r hr hid
    simp only [List.foldl_cons] at hr
    rcases List.mem_cons.mp hmem with rfl | hmem'
    · exact foldMissing_keeps_inactive now id ms (mark_missing db id now)
        (mark_missing_self_inactive db id now) r hr hid
    · exact ih (mark_missing db m now) id hmem' r hr hid

theorem enrich_active_sub (st : Settings) (b : List Snapshot) (t : ℤ)
    (db : DB) (r' : Row) (hmem : r' ∈ (enrich_listings b st t db).2.rows)
    (hact : r'.is_active = true) : r'.listing_id ∈ batchIds b := by
  unfold enrich_listings at hmem
  dsimp only at hmem
  have hloop : r' ∈ (enrichLoop st t b db).2.rows :=
    foldMissing_active_mem t _ (enrichLoop st t b db).2 r' hmem hact
  rcases enrichLoop_mem_shape st t b db r' hloop with hin | ⟨hmem0, hnot⟩
  · exact hin
  · exfalso
    have hA : r'.listing_id ∈
        ((db.rows.filter (·.is_active)).map (·.listing_id)).dedup :=
      List.mem_dedup.mpr
        (List.mem_map.mpr ⟨r', List.mem_filter.mpr ⟨hmem0, by simpa using hact⟩,
          rfl⟩)
    have hmm : r'.listing_id ∈
        (((db.rows.filter (·.is_active)).map (·.listing_id)).dedup).filter
          (fun i => !((b.map (·.listing_id)).contains i)) := by
      refine List.mem_filter.mpr ⟨hA, ?_⟩
      have hc : ((b.map (·.listing_id)).contains r'.listing_id) = false := by
        simp
        intro x hx he
        exact hnot (List.mem_map.mpr ⟨x, hx, he⟩)
      show (!((b.map (·.listing_id)).contains r'.listing_id)) = true
      rw [hc]
      rfl
    have := foldMissing_marks_inactive t _ (enrichLoop st t b db).2
      r'.listing_id hmm r' hmem rfl
    rw [hact] at this
    exact Bool.noConfusion this

theorem updRow_loopUpd (p : Snapshot) (ps : List Snapshot) (now : ℤ)
    (hnot : p.listing_id ∉ batchIds ps) (r : Row) :
    loopUpd ps now (updRow p now r) = loopUpd (p :: ps) now r := by
  by_cases hg : (r.listing_id == p.listing_id) = true
  · have hre : r.listing_id = p.listing_id := by simpa using hg
    have hg2 : (p.listing_id == r.listing_id) = true := by simp [hre]
    have hfn : ps.find? (fun q => q.listing_id ==
        (payloadRow (withSig p) (signature_for p) r.first_seen
          now).listing_id) = none := by
      refine List.find?_eq_none.mpr (fun q hq hgq => ?_)
      refine hnot ?_
      have hqe : q.listing_id = p.listing_id := by
        simpa [payloadRow, withSig] using hgq
      exact List.mem_map.mpr ⟨q, hq, hqe⟩
    have hfp : List.find? (fun q => q.listing_id == r.listing_id) (p :: ps)
        = some p := List.find?_cons_of_pos ps hg2
    unfold updRow
    rw [if_pos hg]
    unfold loopUpd
    rw [hfn, hfp]
  · have hg2 : (p.listing_id == r.listing_id) = false := by
      simp at hg ⊢
      exact fun he => hg he.symm
    have hfp : List.find? (fun q => q.listing_id == r.listing_id) (p :: ps)
        = List.find? (fun q => q.listing_id == r.listing_id) ps :=
      List.find?_cons_of_neg ps (by simp [hg2])
    unfold updRow
    rw [if_neg hg]
    unfold loopUpd
    rw [hfp]

theorem enrichLoop_all_present (st : Settings) (now : ℤ) :
    ∀ (batch : List Snapshot) (db : DB), (batchIds batch).Nodup →
    (∀ p ∈ batch, ∃ r0, rowFor db p.listing_id = some r0
      ∧ r0.price = p.price) →
    (enrichLoop st now batch db).2.rows = db.rows.map (loopUpd batch now)
    ∧ (enrichLoop st now batch db).2.events = db.events
    ∧ (enrichLoop st now batch db).2.presence
        = db.presence ++ batch.map (fun p => (p.listing_id, now)) := by
  intro batch
  induction batch with
  | nil =>
    intro db _ _
    have hid : db.rows.map (loopUpd [] now) = db.rows :=
      (List.map_congr_left (fun r _ =>
        (rfl : loopUpd [] now r = id r))).trans (List.map_id _)
    exact ⟨hid.symm, rfl, (List.append_nil _).symm⟩
  | cons p ps ih =>
    intro db hnd hc
    have hnd2 : (p.listing_id :: batchIds ps).Nodup := hnd
    have hnot : p.listing_id ∉ batchIds ps := (List.nodup_cons.mp hnd2).1
    rcases hc p (List.mem_cons_self _ _) with ⟨r0, h0, hp0⟩
    have hrows1 := processOne_rows_present st now db p r0 h0
    have hev1 := processOne_events_priceEq st now db p r0 h0 hp0
    have hpr1 := processOne_presence st now db p
    have hc2 : ∀ q ∈ ps, ∃ r1,
        rowFor (processOne st now db p).2 q.listing_id = some r1
        ∧ r1.price = q.price := by
      intro q hq
      have hne : q.listing_id ≠ p.listing_id := by
        intro he
        exact hnot (he ▸ List.mem_map.mpr ⟨q, hq, rfl⟩)
      rcases hc q (List.mem_cons_of_mem _ hq) with ⟨r1, h1, hp1⟩
      exact ⟨r1, (processOne_rowFor_other st now db p q.listing_id hne).trans
        h1, hp1⟩
    rcases ih (processOne st now db p).2 (List.nodup_cons.mp hnd2).2 hc2
      with ⟨hr2, he2, hp2⟩
    refine ⟨?_, ?_, ?_⟩
    · show (enrichLoop st now ps (processOne st now db p).2).2.rows = _
      rw [hr2, hrows1, List.map_map]
      exact List.map_congr_left (fun r _ => updRow_loopUpd p ps now hnot r)
    · show (enrichLoop st now ps (processOne st now db p).2).2.events = _
      rw [he2, hev1]
    · show (enrichLoop st now ps (processOne st now db p).2).2.presence = _
      rw [hp2, hpr1, List.append_assoc]
      rfl

theorem enrichLoop_out_shape (st : Settings) (now : ℤ) :
    ∀ (batch : List Snapshot) (db : DB),
    (enrichLoop st now batch db).1.map (·.payload) = batch.map withSig
    ∧ ∀ x ∈ (enrichLoop st now batch db).1,
        x = enrichRecord st x.payload x.dom_days x.price_drop_30d_ratio
          x.is_relist := by
  intro batch
  induction batch with
  | nil =>
    intro db
    exact ⟨rfl, fun x hx => absurd hx (List.not_mem_nil x)⟩
  | cons p ps ih =>
    intro db
    constructor
    · show ((processOne st now db p).1 ::
          (enrichLoop st now ps (processOne st now db p).2).1).map (·.payload)
        = withSig p :: ps.map withSig
      rw [List.map_cons, (ih (processOne st now db p).2).1]
      rfl
    · intro x hx
      have hx2 : x = (processOne st now db p).1
          ∨ x ∈ (enrichLoop st now ps (processOne st now db p).2).1 :=
        List.mem_cons.mp hx
      rcases hx2 with rfl | hx'
      · rfl
      · exact (ih (processOne st now db p).2).2 x hx'

theorem rerun_state (st : Settings) (batch : List Snapshot) (db1 : DB)
    (now2 : ℤ) (hb : (batchIds batch).Nodup)
    (hshape : ∀ p ∈ batch, ∃ fs ls, rowFor db1 p.listing_id
      = some (payloadRow (withSig p) (signature_for p) fs ls))
    (hact : ∀ r ∈ db1.rows, r.is_active = true →
      r.listing_id ∈ batchIds batch)
    (hnd1 : (db1.rows.map (·.listing_id)).Nodup) :
    (enrich_listings batch st now2 db1).2.events = db1.events
    ∧ (enrich_listings batch st now2 db1).2.rows
        = db1.rows.map (fun r =>
            if (batchIds batch).contains r.listing_id
            then { r with last_seen := now2 } else r)
    ∧ (enrich_listings batch st now2 db1).2.presence
        = db1.presence ++ batch.map (fun p => (p.listing_id, now2)) := by
  have hcond : ∀ p ∈ batch, ∃ r0, rowFor db1 p.listing_id = some r0
      ∧ r0.price = p.price := by
    intro p hp
    rcases hshape p hp with ⟨fs, ls, hr⟩
    exact ⟨_, hr, rfl⟩
  rcases enrichLoop_all_present st now2 batch db1 hb hcond with ⟨hr, he, hp⟩
  have hm : (((db1.rows.filter (·.is_active)).map (·.listing_id)).dedup).filter
      (fun i => !((batch.map (·.listing_id)).contains i)) = [] := by
    rw [List.filter_eq_nil_iff]
    intro i hi
    rcases List.mem_map.mp (List.mem_dedup.mp hi) with ⟨r, hrf, rfl⟩
    have hmemr := List.mem_filter.mp hrf
    have hin : r.listing_id ∈ batchIds batch :=
      hact r hmemr.1 (by simpa using hmemr.2)
    simp
    rcases List.mem_map.mp
      (show r.listing_id ∈ batch.map (·.listing_id) from hin)
      with ⟨q, hq, he3⟩
    exact ⟨q, hq, he3⟩
  have h2 : (enrich_listings batch st now2 db1).2
      = (enrichLoop st now2 batch db1).2 := by
    unfold enrich_listings
    dsimp only
    rw [hm]
    rfl
  refine ⟨?_, ?_, ?_⟩
  · rw [h2, he]
  · rw [h2, hr]
    refine List.map_congr_left (fun r hrm => ?_)
    by_cases hc : r.listing_id ∈ batchIds batch
    · have hct : (((batchIds batch).contains r.listing_id) = true) := by
        have hc2 : r.listing_id ∈ batch.map (·.listing_id) := hc
        simpa [batchIds] using hc2
      rw [if_pos hct]
      have hc2 : r.listing_id ∈ batch.map (·.listing_id) := hc
      cases hf : batch.find? (fun p => p.listing_id == r.listing_id) with
      | none =>
        exfalso
        rcases List.mem_map.mp hc2 with ⟨q, hq, he2⟩
        exact absurd (by simpa using he2)
          (by simpa using List.find?_eq_none.mp hf q hq)
      | some q =>
        have hq : q ∈ batch := List.mem_of_find?_eq_some hf
        have hqe : q.listing_id = r.listing_id := by
          simpa using List.find?_some hf
        rcases hshape q hq with ⟨fs, ls, hrow⟩
        have hru : rowFor db1 r.listing_id = some r :=
          rowFor_unique db1 hnd1 r hrm
        rw [hqe, hru] at hrow
        have hre : r = payloadRow (withSig q) (signature_for q) fs ls :=
          Option.some.inj hrow
        subst hre
        show loopUpd batch now2
          (payloadRow (withSig q) (signature_for q) fs ls) = _
        unfold loopUpd
        rw [hf]
        rfl
    · have hcf : (((batchIds batch).contains r.listing_id) = false) := by
        simp [batchIds]
        intro q hq he2
        exact hc (show r.listing_id ∈ batchIds batch from
          List.mem_map.mpr ⟨q, hq, he2⟩)
      have hnc : ¬(((batchIds batch).contains r.listing_id) = true) := by
        simp [hcf]
        exact hc
      rw [if_neg hnc]
      have hfn : batch.find? (fun p => p.listing_id == r.listing_id)
          = none := by
        refine List.find?_eq_none.mpr (fun q hq hgq => ?_)
        exact hc (show r.listing_id ∈ batchIds batch from
          List.mem_map.mpr ⟨q, hq, by simpa using hgq⟩)
      unfold loopUpd
      rw [hfn]
  · rw [h2, hp]

/-- C4 (amended): re-running enrichment on an identical batch (distinct ids)
at a later timestamp appends no event at all (in particular no
`price_change`, since stored and observed prices agree), rewrites exactly the
batch rows' `last_seen` to the new timestamp leaving every other stored field
and every other row unchanged, and appends one presence mark per batch
member.  Both runs emit payload-identical output records; each record is the
canonical enrichment of its payload and its derived `dom_days`,
`price_drop_30d_ratio` and `is_relist` fields, and the score always
decomposes into the five signal terms — so a score difference between the
runs can enter through the dom term but also through the relist and
30-day-drop terms, whose inputs depend on the run clock. -/
theorem c4_rerun_frame_amended (st : Settings) (batch : List Snapshot)
    (db0 : DB) (now1 now2 : ℤ)
    (hb : (batchIds batch).Nodup)
    (hn : (db0.rows.map (·.listing_id)).Nodup) :
    (enrich_listings batch st now2
        (enrich_listings batch st now1 db0).2).2.events
      = (enrich_listings batch st now1 db0).2.events
    ∧ (enrich_listings batch st now2
        (enrich_listings batch st now1 db0).2).2.rows
      = (enrich_listings batch st now1 db0).2.rows.map
          (fun r => if (batchIds batch).contains r.listing_id
            then { r with last_seen := now2 } else r)
    ∧ (enrich_listings batch st now2
        (enrich_listings batch st now1 db0).2).2.presence
      = (enrich_listings batch st now1 db0).2.presence
          ++ batch.map (fun p => (p.listing_id, now2))
    ∧ (enrich_listings batch st now1 db0).1.map (·.payload)
        = batch.map withSig
    ∧ (enrich_listings batch st now2
        (enrich_listings batch st now1 db0).2).1.map (·.payload)
      = batch.map withSig
    ∧ (∀ x ∈ (enrich_listings batch st now1 db0).1,
        x = enrichRecord st x.payload x.dom_days x.price_drop_30d_ratio
          x.is_relist)
    ∧ (∀ x ∈ (enrich_listings batch st now2
          (enrich_listings batch st now1 db0).2).1,
        x = enrichRecord st x.payload x.dom_days x.price_drop_30d_ratio
          x.is_relist)
    ∧ ∀ (q : Snapshot) (dom : Option ℤ) (drop : ℚ) (rel : Bool)
        (hits : List String),
        (evaluate_listing q dom drop rel hits st).1
          = roundTo 2 ((belowSignal st q).1 + (dropSignal st drop).1
            + (domSignal st dom).1 + (kwSignal hits).1
            + (relistSignal rel).1) := by
  have hshape : ∀ p ∈ batch, ∃ fs ls,
      rowFor (enrich_listings batch st now1 db0).2 p.listing_id
        = some (payloadRow (withSig p) (signature_for p) fs ls) := by
    intro p hp
    rcases enrich_batchRow st now1 batch db0 p hb hp with ⟨fs, hr⟩
    exact ⟨fs, now1, hr⟩
  have hact : ∀ r ∈ (enrich_listings batch st now1 db0).2.rows,
      r.is_active = true → r.listing_id ∈ batchIds batch :=
    fun r hm ha => enrich_active_sub st batch now1 db0 r hm ha
  have hnd1 : ((enrich_listings batch st now1 db0).2.rows.map
      (·.listing_id)).Nodup := enrich_nodup st batch now1 db0 hn
  rcases rerun_state st batch (enrich_listings batch st now1 db0).2 now2 hb
    hshape hact hnd1 with ⟨he, hr, hp⟩
  exact ⟨he, hr, hp,
    (enrichLoop_out_shape st now1 batch db0).1,
    (enrichLoop_out_shape st now2 batch
      (enrich_listings batch st now1 db0).2).1,
    (enrichLoop_out_shape st now1 batch db0).2,
    (enrichLoop_out_shape st now2 batch
      (enrich_listings batch st now1 db0).2).2,
    fun q dom drop rel hits => rfl⟩

/-- C4 counterexample: the identical singleton batch for listing X re-run at
day 9 (after run C at day 1 plus one hour).  The dom-days term is 0 in both
runs (1 and 9 days are both below the 45-day threshold) and the drop ratio is
0 in both, yet the score changes from 0 to 10 because `detect_relist` flips
to true once the stored `missing` event is at least 7 days old — the score
changed through the relist term, not the dom term, refuting the claim. -/
theorem c4_rerun_claim_counterexample :
    exRunC.1.map (fun e => (e.score, e.is_relist, e.dom_days,
      e.price_drop_30d_ratio)) = [(0, false, 1, 0)]
    ∧ exRunD.1.map (fun e => (e.score, e.is_relist, e.dom_days,
      e.price_drop_30d_ratio)) = [(10, true, 9, 0)]
    ∧ (domSignal defaultSettings (some 1)).1 = 0
    ∧ (domSignal defaultSettings (some 9)).1 = 0 :=
  ⟨by decide, by decide, by decide, by decide⟩

/-- C4 witness: the amended frame theorem applied to the singleton batch for
listing X on the empty store, run at times 0 and 86400. -/
theorem c4_rerun_frame_amended_witness :
    (batchIds [exSnapX]).Nodup
    ∧ ((emptyDB.rows.map (·.listing_id)).Nodup)
    ∧ (enrich_listings [exSnapX] defaultSettings 86400
        (enrich_listings [exSnapX] defaultSettings 0 emptyDB).2).2.events
      = (enrich_listings [exSnapX] defaultSettings 0 emptyDB).2.events :=
  ⟨by decide, by decide,
    (c4_rerun_frame_amended defaultSettings [exSnapX] emptyDB 0 86400
      (by decide) (by decide)).1⟩

end DealAlert
